import Mathlib

/-!
# TonleDB — a shallow embedding of the storage-and-query engine core

This file embeds, in Lean, the parts of the TonleDB Rust sources that the
specification's claims are about:

* `tonledb-storage/src/lib.rs` — `InMemoryStore` (a `BTreeMap<(Space, Vec<u8>),
  Vec<u8>>` plus an optional WAL file and a bounded LRU cache);
* `tonledb-wal/src/lib.rs` — newline-framed append/replay over a file;
* `tonledb-storage/src/index.rs` — `SecondaryIndex` (insert / delete /
  find_rows over the `index_<name>` space);
* `tonledb-core/src/transaction.rs` — `Transaction` and `TransactionManager`;
* `tonledb-sql/src/lib.rs` — `eval_simple_where`, `value_of`,
  `compare_values` for WHERE evaluation;
* `tonledb-nosql-doc/src/lib.rs` — the document adapter (`insert_with_ttl`,
  `get`);
* `tonledb-backup/src/lib.rs` — `snapshot` / `restore` over the spaces
  `catalog`, `data`, `kv`;
* `tonledb-storage/src/crypto.rs` — `CryptoStorage::new` / `seal` / `open`.

Modelling conventions:

* Bytes are `Fin 256`; `Vec<u8>` is `List Byte`.  A Rust `Space(String)` is
  modelled by its UTF-8 bytes (`Bytes`); the `String::from_utf8_lossy` used by
  WAL replay is the identity on the well-formed ASCII space names the engine
  uses and is modelled as the identity.
* The `BTreeMap` is modelled as an association list sorted strictly by the
  lexicographic order on `(space, key)` pairs, matching the derived `Ord` on
  `(Space, Vec<u8>)` and hence `BTreeMap`'s iteration order.  Locks are
  erased: every claim is about sequential executions.
* File I/O is pure: a WAL file or a snapshot stream is a value in memory;
  `append` never fails (claims do not concern I/O faults).
* Randomness (`rand::thread_rng().fill_bytes`, `nanoid::nanoid!()`) is passed
  in explicitly as a stream/fresh value parameter.
-/

set_option linter.unusedVariables false

namespace TonleDB

/-- A byte, as stored in keys and values (`u8`). -/
abbrev Byte := Fin 256

/-- A byte string (`Vec<u8>`). -/
abbrev Bytes := List Byte

/-- Build a byte from a natural number (callers pass values `< 256`). -/
def mkByte (n : ℕ) : Byte := ⟨n % 256, Nat.mod_lt _ (by norm_num)⟩

/-- UTF-8 bytes of an ASCII string literal (used for space names, key layout
fragments such as `"tbl/"`, and concrete test data). -/
def strBytes (s : String) : Bytes := s.data.map (fun c => mkByte c.toNat)

/-- Strict lexicographic order on byte strings (`Ord` for `Vec<u8>`). -/
def bytesLt : Bytes → Bytes → Bool
  | [], [] => false
  | [], _ :: _ => true
  | _ :: _, [] => false
  | a :: as, b :: bs => if a < b then true else if b < a then false else bytesLt as bs

/-- A full storage key: `(space, key)`, as in `BTreeMap<(Space, Vec<u8>), _>`. -/
abbrev SKey := Bytes × Bytes

/-- Strict lexicographic order on `(space, key)` pairs (the derived `Ord` on
the Rust tuple). -/
def skeyLt (a b : SKey) : Bool :=
  if bytesLt a.1 b.1 then true
  else if a.1 = b.1 then bytesLt a.2 b.2 else false

/-- The ordered in-memory map underlying `InMemoryStore`: an association list
from `(space, key)` to value, mirroring `BTreeMap<(Space, Vec<u8>), Vec<u8>>`.
Every map reachable through the operations below is strictly sorted in the
key order (`StoreMap.WF`), which is `BTreeMap`'s iteration order. -/
def StoreMap := List (SKey × Bytes)

/-- Lookup in the underlying association list (`BTreeMap::get`). -/
def findEntry (k : SKey) : List (SKey × Bytes) → Option Bytes
  | [] => none
  | (k', v') :: t => if k = k' then some v' else findEntry k t

/-- Ordered insert/replace in the association list (`BTreeMap::insert`). -/
def insEntry (k : SKey) (v : Bytes) : List (SKey × Bytes) → List (SKey × Bytes)
  | [] => [(k, v)]
  | (k', v') :: t =>
    if skeyLt k k' then (k, v) :: (k', v') :: t
    else if k = k' then (k, v) :: t
    else (k', v') :: insEntry k v t

/-- Removal from the association list (`BTreeMap::remove`). -/
def delEntry (k : SKey) : List (SKey × Bytes) → List (SKey × Bytes)
  | [] => []
  | (k', v') :: t => if k = k' then t else (k', v') :: delEntry k t

/-- Well-formedness of a `StoreMap`: strictly sorted by `(space, key)`, the
invariant `BTreeMap` maintains. -/
def StoreMap.WF (m : StoreMap) : Prop :=
  m.Pairwise (fun a b => skeyLt a.1 b.1 = true)

/-- The empty map (`BTreeMap::new`). -/
def StoreMap.empty : StoreMap := []

/-- `BTreeMap::get` on the `(space, key)` pair. -/
def StoreMap.get (m : StoreMap) (sp k : Bytes) : Option Bytes :=
  findEntry (sp, k) m

/-- `BTreeMap::insert` on the `(space, key)` pair. -/
def StoreMap.put (m : StoreMap) (sp k v : Bytes) : StoreMap :=
  insEntry (sp, k) v m

/-- `BTreeMap::remove` on the `(space, key)` pair. -/
def StoreMap.del (m : StoreMap) (sp k : Bytes) : StoreMap :=
  delEntry (sp, k) m

/-- Executable check that `p` is an initial segment of `k`
(`<[u8]>::starts_with`). -/
def startsWith : Bytes → Bytes → Bool
  | [], _ => true
  | _ :: _, [] => false
  | a :: as, b :: bs => a = b && startsWith as bs

/-- `Storage::scan_prefix` of `InMemoryStore`: all entries of the space whose
key starts with the prefix, in map (ascending key) order, as `(key, value)`
pairs — `inner.iter().filter(|((s,k),_)| *s==space && k.starts_with(&p))`. -/
def StoreMap.scanPrefix (m : StoreMap) (sp p : Bytes) : List (Bytes × Bytes) :=
  m.filterMap (fun e => if e.1.1 = sp ∧ startsWith p e.1.2 then some (e.1.2, e.2) else none)

/-! ## The LRU cache (`clru::CLruCache`) and `InMemoryStore` -/

/-- The bounded LRU cache over `(space, key)`, most-recently-used first.
`CLruCache::new` takes a `NonZeroUsize` (`cap.try_into().unwrap()`), so the
capacity is a positive natural. -/
structure Lru where
  cap : ℕ+
  items : List (SKey × Bytes)

/-- `CLruCache::new`. -/
def Lru.new (cap : ℕ+) : Lru := ⟨cap, []⟩

/-- Raw lookup in the cache list. -/
def Lru.peek (c : Lru) (k : SKey) : Option Bytes :=
  (c.items.find? (fun e => e.1 = k)).map (·.2)

/-- `CLruCache::get`: on a hit the entry is promoted to most-recently-used. -/
def Lru.getc (c : Lru) (k : SKey) : Option Bytes × Lru :=
  match c.peek k with
  | none => (none, c)
  | some v => (some v, ⟨c.cap, (k, v) :: c.items.filter (fun e => ¬ e.1 = k)⟩)

/-- `CLruCache::put`: insert/replace at most-recently-used, evicting the
least-recently-used entry when the capacity is exceeded. -/
def Lru.putc (c : Lru) (k : SKey) (v : Bytes) : Lru :=
  ⟨c.cap, ((k, v) :: c.items.filter (fun e => ¬ e.1 = k)).take c.cap⟩

/-- `CLruCache::pop`: remove the entry for `k` if present. -/
def Lru.popc (c : Lru) (k : SKey) : Lru :=
  ⟨c.cap, c.items.filter (fun e => ¬ e.1 = k)⟩

/-- Byte constants of the WAL record framing. -/
def tabByte : Byte := mkByte 9

/-- Newline, the WAL record separator. -/
def nlByte : Byte := mkByte 10

/-- `Wal::append(bytes)`: writes the record followed by a newline to the file
(modelled as the file's byte contents). -/
def walAppend (file rec : List Byte) : List Byte :=
  file ++ rec ++ [nlByte]

/-- Split a byte list at every occurrence of a separator
(`slice::split(|b| *b==sep)`). -/
def splitByte (sep : Byte) : List Byte → List (List Byte)
  | [] => [[]]
  | b :: t =>
    if b = sep then [] :: splitByte sep t
    else
      match splitByte sep t with
      | [] => [[b]]
      | h :: r => (b :: h) :: r

/-- `Wal::replay()`: every non-empty newline-separated line of the file, in
order. -/
def walReplay (file : List Byte) : List (List Byte) :=
  (splitByte nlByte file).filter (fun r => ¬ r = [])

/-- `rec.splitn(3, |b| *b==b'\t')` followed by the three `unwrap()`s in
`InMemoryStore::with_wal`: the fields before the first tab, between the first
and second tabs, and everything after the second tab.  `none` models the
panic when the record has fewer than two tabs (never the case for records
written by `put`). -/
def splitRec (rec : List Byte) : Option (Bytes × Bytes × Bytes) :=
  match rec.findIdx? (fun b => b = tabByte) with
  | none => none
  | some i =>
    let sp := rec.take i
    let rest := rec.drop (i + 1)
    match rest.findIdx? (fun b => b = tabByte) with
    | none => none
    | some j => some (sp, rest.take j, rest.drop (j + 1))

/-- `InMemoryStore`: the ordered map, the optional WAL file contents, and the
LRU cache (`tonledb-storage/src/lib.rs`). -/
structure InMemoryStore where
  inner : StoreMap
  wal : Option (List Byte)
  cache : Lru

/-- `InMemoryStore::new(cap)`: no persistence. -/
def InMemoryStore.new (cap : ℕ+) : InMemoryStore :=
  ⟨StoreMap.empty, none, Lru.new cap⟩

/-- `InMemoryStore::with_wal(path, cap)`: replay the WAL file and fold every
parsed record into the map (last writer wins), then start with that map and
an empty cache.  `String::from_utf8_lossy` on the space bytes is modelled as
the identity (space names are ASCII). -/
def InMemoryStore.withWal (file : List Byte) (cap : ℕ+) : Option InMemoryStore := do
  let recs ← (walReplay file).mapM splitRec
  some ⟨recs.foldl (fun m e => m.put e.1 e.2.1 e.2.2) StoreMap.empty,
        some file, Lru.new cap⟩

/-- `Storage::get` for `InMemoryStore`: consult the cache (promoting on a
hit); on a miss read the map and, when present, cache the value.  Returns the
value together with the mutated store (the cache changes). -/
def InMemoryStore.get (st : InMemoryStore) (sp k : Bytes) :
    Option Bytes × InMemoryStore :=
  match st.cache.getc (sp, k) with
  | (some v, c') => (some v, { st with cache := c' })
  | (none, _) =>
    match st.inner.get sp k with
    | some v => (some v, { st with cache := st.cache.putc (sp, k) v })
    | none => (none, st)

/-- `Storage::put` for `InMemoryStore`: append the record
`space '\t' key '\t' value` to the WAL (when one is configured), then update
the cache and the map. -/
def InMemoryStore.put (st : InMemoryStore) (sp k v : Bytes) : InMemoryStore :=
  let wal' := st.wal.map (fun f => walAppend f (sp ++ [tabByte] ++ k ++ [tabByte] ++ v))
  { inner := st.inner.put sp k v,
    wal := wal',
    cache := st.cache.putc (sp, k) v }

/-- `Storage::del` for `InMemoryStore`: drop the cache entry and remove the
key from the map.  Note: nothing is appended to the WAL. -/
def InMemoryStore.del (st : InMemoryStore) (sp k : Bytes) : InMemoryStore :=
  { inner := st.inner.del sp k,
    wal := st.wal,
    cache := st.cache.popc (sp, k) }

/-- A single top-level storage operation, for sequences of writes. -/
inductive StoreOp where
  | putOp (sp k v : Bytes)
  | delOp (sp k : Bytes)

/-- Apply one operation to an `InMemoryStore`. -/
def applyOp (st : InMemoryStore) : StoreOp → InMemoryStore
  | .putOp sp k v => st.put sp k v
  | .delOp sp k => st.del sp k

/-- Apply a sequence of operations to an `InMemoryStore`. -/
def applyOps (ops : List StoreOp) (st : InMemoryStore) : InMemoryStore :=
  ops.foldl applyOp st

/-- Modelled from the spec: "the final `get(space, k)` equals the last
operation's value (or `None` after a delete)" — the value of the last
`put(space, k, ·)` in the sequence unless a later `del(space, k)` follows it,
else `none`. -/
def specFinalGet (ops : List StoreOp) (sp k : Bytes) : Option Bytes :=
  ops.foldl (fun acc op =>
    match op with
    | .putOp sp' k' v => if sp' = sp ∧ k' = k then some v else acc
    | .delOp sp' k' => if sp' = sp ∧ k' = k then none else acc) none

/-! ## Errors (`tonledb-core::DbError`) -/

/-- `DbError`: `NotFound(String) | Invalid(String) | Storage(String)`. -/
inductive DbError where
  | notFound (what : String)
  | invalid (reason : String)
  | storage (reason : String)
  deriving DecidableEq

/-- ASCII rendering of bytes, standing in for `String::from_utf8_lossy` in
error-message construction (claims never inspect these messages). -/
def asciiOfBytes (bs : Bytes) : String :=
  String.mk (bs.map (fun b => Char.ofNat b.val))

/-! ## Secondary index (`tonledb-storage/src/index.rs`)

The index operates through the `Storage` capability; it is modelled over the
map semantics (`StoreMap`), which claim C7's cache-coherence result shows is
exactly `InMemoryStore`'s observable behavior. -/

/-- The `'#'` separator between indexed value and row key. -/
def hashByte : Byte := mkByte 35

/-- `SecondaryIndex { name, table, column, is_unique }`. -/
structure SecondaryIndex where
  name : String
  table : String
  column : String
  is_unique : Bool

/-- `Space(format!("index_{}", self.name))`. -/
def SecondaryIndex.indexSpace (idx : SecondaryIndex) : Bytes :=
  strBytes ("index_" ++ idx.name)

/-- `SecondaryIndex::insert`: for a unique index, first `get` the composite
key `indexed_value ++ '#' ++ row_key` and fail when that exact entry exists;
then `put` the composite key with the one-byte marker `b"1"`. -/
def SecondaryIndex.insert (idx : SecondaryIndex) (st : StoreMap)
    (indexedValue rowKey : Bytes) : Except DbError StoreMap :=
  let indexKey := indexedValue ++ [hashByte] ++ rowKey
  if idx.is_unique ∧ (st.get idx.indexSpace indexKey).isSome then
    .error (.invalid ("Unique constraint violation for index " ++ idx.name ++
      " on value " ++ asciiOfBytes indexedValue))
  else
    .ok (st.put idx.indexSpace indexKey [mkByte 49])

/-- `SecondaryIndex::delete`: `del` the composite key directly. -/
def SecondaryIndex.delete (idx : SecondaryIndex) (st : StoreMap)
    (indexedValue rowKey : Bytes) : StoreMap :=
  st.del idx.indexSpace (indexedValue ++ [hashByte] ++ rowKey)

/-- `SecondaryIndex::find_rows`: prefix-scan the index space with the value
bytes and, for every key containing `'#'`, emit the suffix after the first
`'#'`. -/
def SecondaryIndex.findRows (idx : SecondaryIndex) (st : StoreMap)
    (indexedValue : Bytes) : List Bytes :=
  (st.scanPrefix idx.indexSpace indexedValue).filterMap (fun e =>
    match e.1.findIdx? (fun b => b = hashByte) with
    | some pos => some (e.1.drop (pos + 1))
    | none => none)

/-! ## Transactions (`tonledb-core/src/transaction.rs`)

`HashSet`/`HashMap` read and write sets are modelled as lists with
insert-if-absent / replace-on-insert; their iteration order is unspecified in
Rust and no claim depends on it.  `Storage::get/put/del` of the in-memory
store never fail, so the storage side is the total `StoreMap` semantics. -/

/-- `TransactionState`. -/
inductive TransactionState where
  | active
  | committed
  | aborted
  deriving DecidableEq

/-- `Transaction` (id, state, read set, write set, begin timestamp);
`write_set` maps `(space, key)` to `Some(bytes)` or `None` (pending delete). -/
structure Transaction where
  id : ℕ
  state : TransactionState
  read_set : List SKey
  write_set : List (SKey × Option Bytes)
  timestamp : ℕ

/-- `Transaction::new(id)`; the begin timestamp is passed in (`now_ms`). -/
def Transaction.new (id now : ℕ) : Transaction :=
  ⟨id, .active, [], [], now⟩

/-- Write-set lookup (`HashMap::get`). -/
def wsGet (ws : List (SKey × Option Bytes)) (k : SKey) : Option (Option Bytes) :=
  (ws.find? (fun e => e.1 = k)).map (·.2)

/-- Write-set insert/replace (`HashMap::insert`). -/
def wsInsert (ws : List (SKey × Option Bytes)) (k : SKey) (v : Option Bytes) :
    List (SKey × Option Bytes) :=
  (k, v) :: ws.filter (fun e => ¬ e.1 = k)

/-- Read-set insert (`HashSet::insert`). -/
def rsInsert (rs : List SKey) (k : SKey) : List SKey :=
  if k ∈ rs then rs else k :: rs

/-- `Transaction::get`: consult the write set first (returning the pending
value, or `None` for a pending delete); otherwise record the key in the read
set and read through to storage.  There is no check of `self.state`. -/
def Transaction.get (txn : Transaction) (st : StoreMap) (sp k : Bytes) :
    Except DbError (Option Bytes) × Transaction :=
  match wsGet txn.write_set (sp, k) with
  | some pending => (.ok pending, txn)
  | none =>
    (.ok (st.get sp k), { txn with read_set := rsInsert txn.read_set (sp, k) })

/-- `Transaction::put`: fails with `Invalid("Transaction is not active")`
unless Active; stages `Some(val)` into the write set. -/
def Transaction.put (txn : Transaction) (sp k v : Bytes) :
    Except DbError Transaction :=
  if ¬ txn.state = .active then .error (.invalid "Transaction is not active")
  else .ok { txn with write_set := wsInsert txn.write_set (sp, k) (some v) }

/-- `Transaction::delete`: fails unless Active; stages `None` into the write
set. -/
def Transaction.delete (txn : Transaction) (sp k : Bytes) :
    Except DbError Transaction :=
  if ¬ txn.state = .active then .error (.invalid "Transaction is not active")
  else .ok { txn with write_set := wsInsert txn.write_set (sp, k) none }

/-- `TransactionManager`: the transaction table and the id counter. -/
structure TransactionManager where
  transactions : List (ℕ × Transaction)
  next_txn_id : ℕ

/-- `TransactionManager::new()`. -/
def TransactionManager.new : TransactionManager := ⟨[], 1⟩

/-- Transaction-table lookup (`HashMap::get`). -/
def tmFind (ts : List (ℕ × Transaction)) (id : ℕ) : Option Transaction :=
  (ts.find? (fun e => e.1 = id)).map (·.2)

/-- Transaction-table insert/replace (`HashMap::insert`, also modelling the
`remove` + `insert` pattern of `commit`/`abort`). -/
def tmInsert (ts : List (ℕ × Transaction)) (id : ℕ) (txn : Transaction) :
    List (ℕ × Transaction) :=
  (id, txn) :: ts.filter (fun e => ¬ e.1 = id)

/-- `TransactionManager::begin`: allocate the next id and insert a fresh
Active transaction. -/
def TransactionManager.begin (mgr : TransactionManager) (now : ℕ) :
    ℕ × TransactionManager :=
  let txnId := mgr.next_txn_id
  (txnId, ⟨tmInsert mgr.transactions txnId (Transaction.new txnId now),
           txnId + 1⟩)

/-- `TransactionManager::commit`: `NotFound` when the id is unknown,
`Invalid` when the transaction is not Active; otherwise apply every staged
write to storage (`put` for `Some`, `del` for `None`) and re-insert the
transaction with state Committed.  The `HashMap` iteration order over the
write set is unspecified in Rust; the model applies the write set in list
order. -/
def TransactionManager.commit (mgr : TransactionManager) (st : StoreMap)
    (txnId : ℕ) : Except DbError (StoreMap × TransactionManager) :=
  match tmFind mgr.transactions txnId with
  | none => .error (.notFound ("Transaction " ++ toString txnId ++ " not found"))
  | some txn =>
    if ¬ txn.state = .active then .error (.invalid "Transaction is not active")
    else
      let st' := txn.write_set.foldl (fun st e =>
        match e.2 with
        | some v => st.put e.1.1 e.1.2 v
        | none => st.del e.1.1 e.1.2) st
      .ok (st', ⟨tmInsert mgr.transactions txnId { txn with state := .committed },
                 mgr.next_txn_id⟩)

/-- `TransactionManager::abort`: when the id is present, re-insert the
transaction with state Aborted (whatever its previous state); `NotFound`
otherwise. -/
def TransactionManager.abort (mgr : TransactionManager) (txnId : ℕ) :
    Except DbError TransactionManager :=
  match tmFind mgr.transactions txnId with
  | some txn =>
    .ok ⟨tmInsert mgr.transactions txnId { txn with state := .aborted },
         mgr.next_txn_id⟩
  | none => .error (.notFound ("Transaction " ++ toString txnId ++ " not found"))

/-! ## JSON values (`serde_json::Value`)

`serde_json` numbers carry `i64`/`u64`/`f64`; the claims settled here never
compare two numbers (NULL semantics and document identity), so numbers are
carried as integers. -/

/-- `serde_json::Value`. -/
inductive Json where
  | null
  | bool (b : Bool)
  | num (n : Int)
  | str (s : String)
  | arr (xs : List Json)
  | obj (fs : List (String × Json))

mutual

/-- Structural equality of JSON values (`PartialEq for Value`); object
comparison is field-list based (serde maps carry unique keys and the engine
never observably reorders them). -/
def jsonEq : Json → Json → Bool
  | .null, .null => true
  | .bool a, .bool b => a == b
  | .num a, .num b => a == b
  | .str a, .str b => a == b
  | .arr a, .arr b => jsonListEq a b
  | .obj a, .obj b => jsonObjEq a b
  | _, _ => false

/-- Elementwise equality of JSON arrays. -/
def jsonListEq : List Json → List Json → Bool
  | [], [] => true
  | a :: as, b :: bs => jsonEq a b && jsonListEq as bs
  | _, _ => false

/-- Fieldwise equality of JSON objects. -/
def jsonObjEq : List (String × Json) → List (String × Json) → Bool
  | [], [] => true
  | (ka, va) :: as, (kb, vb) :: bs => ka == kb && jsonEq va vb && jsonObjEq as bs
  | _, _ => false

end

/-- `Value::get(name)`: field lookup, `None` on non-objects. -/
def Json.getField : Json → String → Option Json
  | .obj fs, name => (fs.find? (fun f => f.1 = name)).map (·.2)
  | _, _ => none

/-- `Value::as_i64()` (floats and out-of-range numbers are not modelled). -/
def Json.asI64 : Json → Option Int
  | .num n => some n
  | _ => none

/-! ## SQL WHERE evaluation (`tonledb-sql/src/lib.rs`) -/

/-- `sqlparser::ast::Value` literals reaching `lit_sql_to_json`.  `number`
carries the parsed numeric value (the source parses via `f64`; the claims
use only integral literals, which parse exactly). -/
inductive SqlLit where
  | number (n : Int)
  | singleQuoted (s : String)
  | doubleQuoted (s : String)
  | boolean (b : Bool)
  | nullLit
  | otherLit

/-- The comparison operators `eval_simple_where` supports. -/
inductive SqlBinOp where
  | eqOp
  | notEqOp
  | gtOp
  | ltOp
  | gtEqOp
  | ltEqOp

/-- The `sqlparser::ast::Expr` shapes `eval_simple_where`/`value_of`
distinguish; `unsupportedExpr` stands for every other AST node. -/
inductive SqlExpr where
  | identExpr (name : String)
  | valueExpr (v : SqlLit)
  | binaryOp (l : SqlExpr) (op : SqlBinOp) (r : SqlExpr)
  | notExpr (e : SqlExpr)
  | nested (e : SqlExpr)
  | unsupportedExpr

/-- `lit_sql_to_json`: numbers, quoted strings, booleans and `NULL`; every
other literal becomes `Null`. -/
def lit_sql_to_json : SqlLit → Json
  | .number n => .num n
  | .singleQuoted s => .str s
  | .doubleQuoted s => .str s
  | .boolean b => .bool b
  | .nullLit => .null
  | .otherLit => .null

/-- `value_of`: an identifier reads the row's field (missing fields and
non-object rows read as `Null`), a literal converts via `lit_sql_to_json`,
anything else is `Invalid("unsupported expression")`. -/
def value_of (row : Json) (e : SqlExpr) : Except DbError Json :=
  match e with
  | .identExpr name => .ok ((row.getField name).getD .null)
  | .valueExpr v => .ok (lit_sql_to_json v)
  | _ => .error (.invalid "unsupported expression")

/-- `compare_values`: numbers numerically, strings lexicographically,
booleans `false < true`, every other pairing `Equal`.  (The source compares
numbers through `f64`; no claim compares two numbers.) -/
def compare_values (l r : Json) : Ordering :=
  match l, r with
  | .num a, .num b => compare a b
  | .str a, .str b => compare a b
  | .bool a, .bool b => compare a b
  | _, _ => .eq

/-- `eval_simple_where`: binary comparisons via `value_of` on both sides
(`=`/`<>` by `PartialEq`, the four inequalities by `compare_values`), `NOT`,
and parenthesised nesting; every other node is `Invalid`. -/
def eval_simple_where (row : Json) (e : SqlExpr) : Except DbError Bool :=
  match e with
  | .binaryOp l op r => do
    let lv ← value_of row l
    let rv ← value_of row r
    match op with
    | .eqOp => .ok (jsonEq lv rv)
    | .notEqOp => .ok (! jsonEq lv rv)
    | .gtOp => .ok (compare_values lv rv == .gt)
    | .ltOp => .ok (compare_values lv rv == .lt)
    | .gtEqOp => .ok (! (compare_values lv rv == .lt))
    | .ltEqOp => .ok (! (compare_values lv rv == .gt))
  | .notExpr e => do
    let v ← eval_simple_where row e
    .ok (! v)
  | .nested e => eval_simple_where row e
  | _ => .error (.invalid "Unsupported expression type")

/-! ## Document adapter (`tonledb-nosql-doc/src/lib.rs`)

The adapter reads and writes the `data` space through
`serde_json::to_vec` / `from_slice`, which round-trip the JSON values it
stores; the space is therefore modelled as a JSON-valued association map
keyed by the document key bytes.  The `nanoid::nanoid!()` fresh identifier
and the clock are explicit parameters. -/

/-- The `data` space as seen by the document adapter. -/
def JStore := List (Bytes × Json)

/-- Storage `get` under the serde round-trip. -/
def JStore.jget (st : JStore) (k : Bytes) : Option Json :=
  (st.find? (fun e => e.1 = k)).map (·.2)

/-- Storage `put` under the serde round-trip. -/
def JStore.jput (st : JStore) (k : Bytes) (v : Json) : JStore :=
  (k, v) :: st.filter (fun e => ¬ e.1 = k)

/-- `doc_key(collection, id)`: the bytes of `doc/<collection>/<id>`. -/
def doc_key (collection id : String) : Bytes :=
  strBytes ("doc/" ++ collection ++ "/" ++ id)

/-- `serde_json::Map::insert` (overwrite or add a field). -/
def objInsert (fs : List (String × Json)) (k : String) (v : Json) :
    List (String × Json) :=
  if (fs.find? (fun f => f.1 = k)).isSome then
    fs.map (fun f => if f.1 = k then (k, v) else f)
  else fs ++ [(k, v)]

/-- `insert_with_ttl(storage, collection, doc, ttl_seconds)`: always draws a
fresh id (`nanoid::nanoid!()`, the `freshId` parameter); on an object
document, `entry("_id").or_insert(id)` sets `_id` only when absent, and a
requested TTL inserts `_ttl_epoch_ms = now_ms + ttl*1000`; then the document
is written under `doc/<collection>/<freshId>` and the fresh id returned.
Non-object documents are stored unchanged. -/
def insert_with_ttl (st : JStore) (collection : String) (doc : Json)
    (ttl_seconds : Option ℕ) (freshId : String) (now_ms : Int) :
    String × JStore :=
  let id := freshId
  let doc' :=
    match doc with
    | .obj fs =>
      let fs1 :=
        if (fs.find? (fun f => f.1 = "_id")).isSome then fs
        else fs ++ [("_id", Json.str id)]
      let fs2 :=
        match ttl_seconds with
        | some ttl => objInsert fs1 "_ttl_epoch_ms" (.num (now_ms + ttl * 1000))
        | none => fs1
      Json.obj fs2
    | j => j
  (id, st.jput (doc_key collection id) doc')

/-- `insert(collection, doc)` = `insert_with_ttl(..., None)`. -/
def docInsert (st : JStore) (collection : String) (doc : Json)
    (freshId : String) (now_ms : Int) : String × JStore :=
  insert_with_ttl st collection doc none freshId now_ms

/-- `is_expired(doc)`: a numeric `_ttl_epoch_ms` less than or equal to the
current time. -/
def is_expired (doc : Json) (now_ms : Int) : Bool :=
  match (doc.getField "_ttl_epoch_ms").bind Json.asI64 with
  | some ttl => now_ms ≥ ttl
  | none => false

/-- `get(storage, collection, id, ignore_expired)`. -/
def docGet (st : JStore) (collection id : String) (ignore_expired : Bool)
    (now_ms : Int) : Option Json :=
  match st.jget (doc_key collection id) with
  | some doc => if ignore_expired ∧ is_expired doc now_ms then none else some doc
  | none => none

/-! ## Standard base64 with padding (the `base64` crate, STANDARD config)

Used by the snapshot format (`key_b64`, `val_b64`) and by
`CryptoStorage::new`'s KEK argument. -/

/-- The standard base64 alphabet. -/
def b64Alphabet : List Char :=
  "ABCDEFGHIJKLMNOPQRSTUVWXYZabcdefghijklmnopqrstuvwxyz0123456789+/".data

/-- Character of a sextet. -/
def b64Char (n : ℕ) : Char := b64Alphabet.getD n 'A'

/-- Sextet of a character (`none` for characters outside the alphabet,
including the padding `'='`). -/
def b64Index (c : Char) : Option ℕ := b64Alphabet.findIdx? (fun x => x = c)

/-- Standard base64 encoding with padding, three input bytes per four output
characters. -/
def b64encode : Bytes → List Char
  | [] => []
  | [a] => [b64Char (a.val / 4), b64Char (a.val % 4 * 16), '=', '=']
  | [a, b] => [b64Char (a.val / 4), b64Char (a.val % 4 * 16 + b.val / 16),
               b64Char (b.val % 16 * 4), '=']
  | a :: b :: c :: rest =>
    b64Char (a.val / 4) :: b64Char (a.val % 4 * 16 + b.val / 16) ::
    b64Char (b.val % 16 * 4 + c.val / 64) :: b64Char (c.val % 64) ::
    b64encode rest

/-- Standard base64 decoding with padding: four characters per block, `'='`
padding only in the final block (one `'='` for a two-byte tail, two for a
one-byte tail); characters outside the alphabet fail the decode. -/
def b64decode : List Char → Option Bytes
  | [] => some []
  | c1 :: c2 :: c3 :: c4 :: rest =>
    if rest = [] then
      if c4 = '=' then
        if c3 = '=' then do
          let s1 ← b64Index c1
          let s2 ← b64Index c2
          some [mkByte (s1 * 4 + s2 / 16)]
        else do
          let s1 ← b64Index c1
          let s2 ← b64Index c2
          let s3 ← b64Index c3
          some [mkByte (s1 * 4 + s2 / 16), mkByte (s2 % 16 * 16 + s3 / 4)]
      else do
        let s1 ← b64Index c1
        let s2 ← b64Index c2
        let s3 ← b64Index c3
        let s4 ← b64Index c4
        some [mkByte (s1 * 4 + s2 / 16), mkByte (s2 % 16 * 16 + s3 / 4),
              mkByte (s3 % 4 * 64 + s4)]
    else do
      let s1 ← b64Index c1
      let s2 ← b64Index c2
      let s3 ← b64Index c3
      let s4 ← b64Index c4
      let tail ← b64decode rest
      some (mkByte (s1 * 4 + s2 / 16) :: mkByte (s2 % 16 * 16 + s3 / 4) ::
            mkByte (s3 % 4 * 64 + s4) :: tail)
  | _ => none

/-! ## Backup/restore (`tonledb-backup/src/lib.rs`)

A snapshot is a JSON-Lines stream of flat three-string records; the framing
(`serde_json::to_string` per line, one record per non-empty line) is
injective and round-trips, so the stream is modelled as the list of its
records. -/

/-- One snapshot line: `{"space": S, "key_b64": K, "val_b64": V}`. -/
structure SnapshotRec where
  space : Bytes
  key_b64 : List Char
  val_b64 : List Char

/-- The space `catalog`. -/
def spaceCatalog : Bytes := strBytes "catalog"

/-- The space `data`. -/
def spaceData : Bytes := strBytes "data"

/-- The space `kv`. -/
def spaceKv : Bytes := strBytes "kv"

/-- `write_snapshot`: for each of `catalog`, `data`, `kv` in that order,
scan every entry (empty prefix) and emit one record with base64-encoded key
and value. -/
def write_snapshot (m : StoreMap) : List SnapshotRec :=
  ([spaceCatalog, spaceData, spaceKv].map (fun sp =>
    (m.scanPrefix sp []).map (fun e =>
      SnapshotRec.mk sp (b64encode e.1) (b64encode e.2)))).flatten

/-- `restore`: for every record in order, base64-decode the key and the
value (a decode error aborts the whole restore, as `?` does) and `put` into
the named space.  No index rebuild of any kind is performed. -/
def restore (recs : List SnapshotRec) (st : StoreMap) : Option StoreMap :=
  recs.foldlM (fun st rec => do
    let key ← b64decode rec.key_b64
    let val ← b64decode rec.val_b64
    some (st.put rec.space key val)) st

/-! ## `CryptoStorage` (`tonledb-storage/src/crypto.rs`)

AES-256-GCM itself is a cryptographic primitive and is not modelled; `seal`
and `open` are parametric in the AEAD encrypt/decrypt functions
(`key → nonce → aad → message → Option result`).  The process RNG is an
explicit byte stream: `fill_bytes` takes its next bytes. -/

/-- The state of a constructed `CryptoStorage`: the 256-bit data-encryption
key.  (The wrapped inner storage plays no role in key handling.) -/
structure CryptoState where
  dek : Bytes

/-- `CryptoStorage::new(inner, kek_b64)`: base64-decode the caller's KEK and
fail unless it is exactly 32 bytes; then sample a fresh random DEK
(`rand::thread_rng().fill_bytes`) — the decoded KEK is dropped unused. -/
def CryptoStorage.new (rng : Bytes) (kek_b64 : List Char) :
    Except DbError CryptoState :=
  match b64decode kek_b64 with
  | none => .error (.invalid "KEK b64: decode error")
  | some kek =>
    if ¬ kek.length = 32 then .error (.invalid "KEK must be 32 bytes")
    else .ok ⟨rng.take 32⟩

/-- `CryptoStorage::seal`: draw a fresh 12-byte nonce, encrypt under the DEK
with associated data `space ++ key`, and return `nonce ++ ciphertext`. -/
def CryptoStorage.seal (aeadEncrypt : Bytes → Bytes → Bytes → Bytes → Option Bytes)
    (s : CryptoState) (rng : Bytes) (pt : Bytes) (sp key : Bytes) :
    Except DbError Bytes :=
  let nonce := rng.take 12
  let aad := sp ++ key
  match aeadEncrypt s.dek nonce aad pt with
  | some ct => .ok (nonce ++ ct)
  | none => .error (.storage "encrypt error")

/-- `CryptoStorage::open`: reject blobs shorter than the 12-byte nonce, then
decrypt under the DEK with associated data `space ++ key`. -/
def CryptoStorage.openBlob (aeadDecrypt : Bytes → Bytes → Bytes → Bytes → Option Bytes)
    (s : CryptoState) (blob : Bytes) (sp key : Bytes) :
    Except DbError Bytes :=
  if blob.length < 12 then .error (.storage "ciphertext too short")
  else
    let nonce := blob.take 12
    let ct := blob.drop 12
    let aad := sp ++ key
    match aeadDecrypt s.dek nonce aad ct with
    | some pt => .ok pt
    | none => .error (.storage "decrypt failed")

/-! ## Lemmas: the ordered map -/

theorem findEntry_insEntry_self (k : SKey) (v : Bytes) (l : List (SKey × Bytes)) :
    findEntry k (insEntry k v l) = some v := by
  induction l with
  | nil => simp [insEntry, findEntry]
  | cons e t ih =>
    obtain ⟨k', v'⟩ := e
    by_cases h1 : skeyLt k k' = true
    · simp [insEntry, h1, findEntry]
    · by_cases h2 : k = k'
      · subst h2
        simp [insEntry, h1, findEntry]
      · simp [insEntry, h1, h2, findEntry, ih]

theorem findEntry_insEntry_ne (k k2 : SKey) (v : Bytes) (l : List (SKey × Bytes))
    (hne : ¬ k2 = k) : findEntry k2 (insEntry k v l) = findEntry k2 l := by
  induction l with
  | nil => simp [insEntry, findEntry, hne]
  | cons e t ih =>
    obtain ⟨k', v'⟩ := e
    by_cases h1 : skeyLt k k' = true
    · simp [insEntry, h1, findEntry, hne]
    · by_cases h2 : k = k'
      · subst h2
        simp [insEntry, h1, findEntry, hne]
      · simp [insEntry, h1, h2, findEntry, ih]

theorem findEntry_delEntry_ne (k k2 : SKey) (l : List (SKey × Bytes))
    (hne : ¬ k2 = k) : findEntry k2 (delEntry k l) = findEntry k2 l := by
  induction l with
  | nil => simp [delEntry]
  | cons e t ih =>
    obtain ⟨k', v'⟩ := e
    by_cases h2 : k = k'
    · subst h2
      simp [delEntry, findEntry, hne]
    · simp [delEntry, h2, findEntry, ih]

theorem findEntry_eq_none_of_keys (k : SKey) (l : List (SKey × Bytes))
    (h : ∀ e ∈ l, ¬ e.1 = k) : findEntry k l = none := by
  induction l with
  | nil => rfl
  | cons e t ih =>
    obtain ⟨k', v'⟩ := e
    have hk : ¬ k = k' := fun hkk => h (k', v') (by simp) (by simp [hkk])
    simp only [findEntry, if_neg hk]
    exact ih (fun e he => h e (by simp [he]))

theorem findEntry_mem (k : SKey) (v : Bytes) (l : List (SKey × Bytes))
    (h : findEntry k l = some v) : (k, v) ∈ l := by
  induction l with
  | nil => simp [findEntry] at h
  | cons e t ih =>
    obtain ⟨k', v'⟩ := e
    by_cases hk : k = k'
    · subst hk
      simp [findEntry] at h
      simp [h]
    · simp only [findEntry, if_neg hk] at h
      exact List.mem_cons_of_mem _ (ih h)

/-! ## Lemmas: the key order -/

theorem bytesLt_irrefl (a : Bytes) : bytesLt a a = false := by
  induction a with
  | nil => rfl
  | cons x xs ih => simp [bytesLt, lt_irrefl, ih]

theorem bytesLt_trans {a b c : Bytes} (h1 : bytesLt a b = true)
    (h2 : bytesLt b c = true) : bytesLt a c = true := by
  induction a generalizing b c with
  | nil =>
    cases b with
    | nil => simp [bytesLt] at h1
    | cons y ys =>
      cases c with
      | nil => simp [bytesLt] at h2
      | cons z zs => simp [bytesLt]
  | cons x xs ih =>
    cases b with
    | nil => simp [bytesLt] at h1
    | cons y ys =>
      cases c with
      | nil => simp [bytesLt] at h2
      | cons z zs =>
        simp only [bytesLt] at h1 h2 ⊢
        by_cases hxy : x < y
        · by_cases hyz : y < z
          · rw [if_pos (lt_trans hxy hyz)]
          · by_cases hzy : z < y
            · simp [hyz, hzy] at h2
            · have hyzeq : y = z := le_antisymm (not_lt.mp hzy) (not_lt.mp hyz)
              subst hyzeq
              rw [if_pos hxy]
        · by_cases hyx : y < x
          · simp [hxy, hyx] at h1
          · have hxyeq : x = y := le_antisymm (not_lt.mp hyx) (not_lt.mp hxy)
            subst hxyeq
            simp only [if_neg hxy, if_neg hyx] at h1
            by_cases hyz : x < z
            · rw [if_pos hyz]
            · by_cases hzy : z < x
              · simp [hyz, hzy] at h2
              · simp only [if_neg hyz, if_neg hzy] at h2 ⊢
                exact ih h1 h2

theorem bytesLt_total {a b : Bytes} (h : ¬ a = b) :
    bytesLt a b = true ∨ bytesLt b a = true := by
  induction a generalizing b with
  | nil =>
    cases b with
    | nil => exact absurd rfl h
    | cons y ys => left; simp [bytesLt]
  | cons x xs ih =>
    cases b with
    | nil => right; simp [bytesLt]
    | cons y ys =>
      by_cases hxy : x < y
      · left; simp [bytesLt, hxy]
      · by_cases hyx : y < x
        · right; simp [bytesLt, hyx]
        · have hxyeq : x = y := le_antisymm (not_lt.mp hyx) (not_lt.mp hxy)
          subst hxyeq
          have hne : ¬ xs = ys := fun hh => h (by rw [hh])
          rcases ih hne with h' | h'
          · left; simp [bytesLt, lt_irrefl, h']
          · right; simp [bytesLt, lt_irrefl, h']

theorem skeyLt_irrefl (a : SKey) : skeyLt a a = false := by
  simp [skeyLt, bytesLt_irrefl]

theorem skeyLt_trans {a b c : SKey} (h1 : skeyLt a b = true)
    (h2 : skeyLt b c = true) : skeyLt a c = true := by
  simp only [skeyLt] at h1 h2 ⊢
  by_cases hab : bytesLt a.1 b.1 = true
  · by_cases hbc : bytesLt b.1 c.1 = true
    · rw [if_pos (bytesLt_trans hab hbc)]
    · by_cases hbceq : b.1 = c.1
      · rw [← hbceq, if_pos hab]
      · simp [hbc, hbceq] at h2
  · by_cases habeq : a.1 = b.1
    · by_cases hbc : bytesLt b.1 c.1 = true
      · rw [habeq, if_pos hbc]
      · by_cases hbceq : b.1 = c.1
        · rw [if_neg hab, if_pos habeq] at h1
          rw [if_neg hbc, if_pos hbceq] at h2
          have hac : a.1 = c.1 := habeq.trans hbceq
          have hlt : ¬ bytesLt a.1 c.1 = true := by
            simp [hac, bytesLt_irrefl]
          rw [if_neg hlt, if_pos hac]
          exact bytesLt_trans h1 h2
        · simp [hbc, hbceq] at h2
    · simp [hab, habeq] at h1

theorem skeyLt_total {a b : SKey} (h : ¬ a = b) :
    skeyLt a b = true ∨ skeyLt b a = true := by
  by_cases h1 : a.1 = b.1
  · have h2 : ¬ a.2 = b.2 := by
      intro h2
      exact h (Prod.ext h1 h2)
    rcases bytesLt_total h2 with h' | h'
    · left; simp [skeyLt, h1, bytesLt_irrefl, h']
    · right; simp [skeyLt, h1.symm, bytesLt_irrefl, h']
  · rcases bytesLt_total h1 with h' | h'
    · left; simp [skeyLt, h']
    · right; simp [skeyLt, h']

theorem mem_insEntry {k : SKey} {v : Bytes} {l : List (SKey × Bytes)}
    {e : SKey × Bytes} (he : e ∈ insEntry k v l) : e = (k, v) ∨ e ∈ l := by
  induction l with
  | nil => simp [insEntry] at he; simp [he]
  | cons e' t ih =>
    obtain ⟨k', v'⟩ := e'
    by_cases h1 : skeyLt k k' = true
    · simp only [insEntry, if_pos h1] at he
      rcases List.mem_cons.mp he with rfl | he'
      · exact Or.inl rfl
      · exact Or.inr he'
    · by_cases h2 : k = k'
      · subst h2
        simp only [insEntry, if_neg h1, if_pos rfl] at he
        rcases List.mem_cons.mp he with rfl | he'
        · exact Or.inl rfl
        · exact Or.inr (List.mem_cons_of_mem _ he')
      · simp only [insEntry, if_neg h1, if_neg h2] at he
        rcases List.mem_cons.mp he with rfl | he'
        · exact Or.inr (List.mem_cons_self _ _)
        · rcases ih he' with h' | h'
          · exact Or.inl h'
          · exact Or.inr (List.mem_cons_of_mem _ h')

theorem insEntry_pairwise (k : SKey) (v : Bytes) (l : List (SKey × Bytes))
    (hs : l.Pairwise (fun a b => skeyLt a.1 b.1 = true)) :
    (insEntry k v l).Pairwise (fun a b => skeyLt a.1 b.1 = true) := by
  induction l with
  | nil => simp [insEntry]
  | cons e t ih =>
    obtain ⟨k', v'⟩ := e
    rcases List.pairwise_cons.mp hs with ⟨hhead, htail⟩
    by_cases h1 : skeyLt k k' = true
    · simp only [insEntry, if_pos h1]
      refine List.pairwise_cons.mpr ⟨?_, hs⟩
      intro e he
      rcases List.mem_cons.mp he with rfl | he'
      · exact h1
      · exact skeyLt_trans h1 (hhead e he')
    · by_cases h2 : k = k'
      · subst h2
        simp only [insEntry, if_neg h1, if_pos rfl]
        exact List.pairwise_cons.mpr ⟨hhead, htail⟩
      · simp only [insEntry, if_neg h1, if_neg h2]
        refine List.pairwise_cons.mpr ⟨?_, ih htail⟩
        intro e he
        rcases mem_insEntry he with rfl | he'
        · show skeyLt k' k = true
          rcases skeyLt_total (fun hh : k' = k => h2 hh.symm) with h' | h'
          · exact h'
          · exact absurd h' h1
        · exact hhead e he'

theorem delEntry_sublist (k : SKey) (l : List (SKey × Bytes)) :
    List.Sublist (delEntry k l) l := by
  induction l with
  | nil => simp [delEntry]
  | cons e t ih =>
    obtain ⟨k', v'⟩ := e
    by_cases h : k = k'
    · simp only [delEntry, if_pos h]
      exact List.sublist_cons_self _ _
    · simp only [delEntry, if_neg h]
      exact ih.cons₂ _

theorem delEntry_pairwise (k : SKey) (l : List (SKey × Bytes))
    (hs : l.Pairwise (fun a b => skeyLt a.1 b.1 = true)) :
    (delEntry k l).Pairwise (fun a b => skeyLt a.1 b.1 = true) :=
  hs.sublist (delEntry_sublist k l)

theorem findEntry_delEntry_self (k : SKey) (l : List (SKey × Bytes))
    (hs : l.Pairwise (fun a b => skeyLt a.1 b.1 = true)) :
    findEntry k (delEntry k l) = none := by
  induction l with
  | nil => rfl
  | cons e t ih =>
    obtain ⟨k', v'⟩ := e
    rcases List.pairwise_cons.mp hs with ⟨hhead, htail⟩
    by_cases h : k = k'
    · subst h
      simp only [delEntry, if_pos rfl]
      apply findEntry_eq_none_of_keys
      intro e he heq
      have h2 := hhead e he
      rw [heq] at h2
      simp [skeyLt_irrefl] at h2
    · simp only [delEntry, if_neg h, findEntry, if_neg h]
      exact ih htail

theorem findEntry_eq_some_of_mem {k : SKey} {v : Bytes} {l : List (SKey × Bytes)}
    (hs : l.Pairwise (fun a b => skeyLt a.1 b.1 = true)) (hm : (k, v) ∈ l) :
    findEntry k l = some v := by
  induction l with
  | nil => simp at hm
  | cons e t ih =>
    obtain ⟨k', v'⟩ := e
    rcases List.pairwise_cons.mp hs with ⟨hhead, htail⟩
    rcases List.mem_cons.mp hm with heq | hm'
    · rw [Prod.mk.injEq] at heq
      simp [findEntry, heq.1, heq.2]
    · have hne : ¬ k = k' := by
        intro hkk
        have h2 := hhead _ hm'
        rw [← hkk] at h2
        simp [skeyLt_irrefl] at h2
      simp only [findEntry, if_neg hne]
      exact ih htail hm'

theorem findEntry_cons_self (k : SKey) (v : Bytes) (t : List (SKey × Bytes)) :
    findEntry k ((k, v) :: t) = some v := by
  simp [findEntry]

theorem sorted_ext (l1 l2 : List (SKey × Bytes))
    (h1 : l1.Pairwise (fun a b => skeyLt a.1 b.1 = true))
    (h2 : l2.Pairwise (fun a b => skeyLt a.1 b.1 = true))
    (h : ∀ k, findEntry k l1 = findEntry k l2) : l1 = l2 := by
  induction l1 generalizing l2 with
  | nil =>
    cases l2 with
    | nil => rfl
    | cons e t =>
      obtain ⟨k, v⟩ := e
      have hk := h k
      simp [findEntry] at hk
  | cons e t1 ih =>
    obtain ⟨k, v⟩ := e
    cases l2 with
    | nil =>
      have hk := h k
      simp [findEntry] at hk
    | cons e2 t2 =>
      obtain ⟨k2, v2⟩ := e2
      rcases List.pairwise_cons.mp h1 with ⟨hh1, ht1⟩
      rcases List.pairwise_cons.mp h2 with ⟨hh2, ht2⟩
      have hkk : k = k2 := by
        by_contra hne
        have e1 : findEntry k ((k2, v2) :: t2) = some v := by
          rw [← h k]
          exact findEntry_cons_self k v t1
        rw [findEntry, if_neg hne] at e1
        have lt1 := hh2 _ (findEntry_mem _ _ _ e1)
        have e2' : findEntry k2 ((k, v) :: t1) = some v2 := by
          rw [h k2]
          exact findEntry_cons_self k2 v2 t2
        rw [findEntry, if_neg (fun hh : k2 = k => hne hh.symm)] at e2'
        have lt2 := hh1 _ (findEntry_mem _ _ _ e2')
        have hcon := skeyLt_trans lt2 lt1
        simp [skeyLt_irrefl] at hcon
      subst hkk
      have hvv : v = v2 := by
        have hk := h k
        rw [findEntry_cons_self, findEntry_cons_self] at hk
        exact Option.some.inj hk
      subst hvv
      have htails : t1 = t2 := by
        apply ih t2 ht1 ht2
        intro j
        by_cases hj : j = k
        · subst hj
          rw [findEntry_eq_none_of_keys _ _ ?_, findEntry_eq_none_of_keys _ _ ?_]
          · intro e he heq
            have hx := hh2 e he
            rw [heq] at hx
            simp [skeyLt_irrefl] at hx
          · intro e he heq
            have hx := hh1 e he
            rw [heq] at hx
            simp [skeyLt_irrefl] at hx
        · have hk := h j
          simpa only [findEntry, if_neg hj] using hk
      rw [htails]

/-! ## Lemmas: prefix scans -/

theorem startsWith_iff (p k : Bytes) : startsWith p k = true ↔ p <+: k := by
  induction p generalizing k with
  | nil => simp [startsWith]
  | cons a as ih =>
    cases k with
    | nil =>
      simp [startsWith]
    | cons b bs =>
      simp only [startsWith, Bool.and_eq_true, decide_eq_true_eq, ih,
        List.cons_prefix_cons]

theorem mem_scanPrefix {m : StoreMap} (hs : m.WF) (sp p k : Bytes) (v : Bytes) :
    (k, v) ∈ m.scanPrefix sp p ↔ m.get sp k = some v ∧ startsWith p k = true := by
  constructor
  · intro hmem
    rcases List.mem_filterMap.mp hmem with ⟨e, hel, hfe⟩
    obtain ⟨⟨es, ek⟩, ev⟩ := e
    by_cases hc : es = sp ∧ startsWith p ek = true
    · rw [if_pos hc] at hfe
      have hk : ek = k := congrArg Prod.fst (Option.some.inj hfe)
      have hv : ev = v := congrArg Prod.snd (Option.some.inj hfe)
      rcases hc with ⟨hcs, hcp⟩
      subst hk hv hcs
      exact ⟨findEntry_eq_some_of_mem hs hel, hcp⟩
    · rw [if_neg hc] at hfe
      exact absurd hfe (by simp)
  · rintro ⟨hget, hpre⟩
    apply List.mem_filterMap.mpr
    refine ⟨((sp, k), v), findEntry_mem _ _ _ hget, ?_⟩
    rw [if_pos ⟨rfl, hpre⟩]

/-! ## Lemmas: cache coherence of `InMemoryStore` (towards C7) -/

theorem peek_agrees {st : InMemoryStore} {key : SKey} {v : Bytes}
    (hc : ∀ e ∈ st.cache.items, findEntry e.1 st.inner = some e.2)
    (hp : st.cache.peek key = some v) : findEntry key st.inner = some v := by
  unfold Lru.peek at hp
  rcases Option.map_eq_some'.mp hp with ⟨e, hfind, hev⟩
  have hmem := List.mem_of_find?_eq_some hfind
  have hkey : e.1 = key := by
    have := List.find?_some hfind
    simpa using this
  have := hc e hmem
  rw [hkey, hev] at this
  exact this

theorem get_fst_of_coherent (st : InMemoryStore) (sp k : Bytes)
    (hc : ∀ e ∈ st.cache.items, findEntry e.1 st.inner = some e.2) :
    (st.get sp k).1 = st.inner.get sp k := by
  unfold InMemoryStore.get Lru.getc
  cases hp : st.cache.peek (sp, k) with
  | some v => exact (peek_agrees hc hp).symm
  | none =>
    cases hg : st.inner.get sp k with
    | some v => simp [hg]
    | none => simp [hg]

theorem mem_cache_of_putc {c : Lru} {key : SKey} {v : Bytes} {e : SKey × Bytes}
    (he : e ∈ (c.putc key v).items) :
    e = (key, v) ∨ (e ∈ c.items ∧ ¬ e.1 = key) := by
  have he0 : e ∈ ((key, v) :: c.items.filter (fun e => ¬ e.1 = key)).take c.cap := he
  have he' := List.take_subset _ _ he0
  rcases List.mem_cons.mp he' with rfl | he''
  · exact Or.inl rfl
  · refine Or.inr ⟨List.mem_of_mem_filter he'', ?_⟩
    have := List.of_mem_filter he''
    simpa using this

theorem applyOp_inv (st : InMemoryStore) (op : StoreOp)
    (hw : st.inner.WF)
    (hc : ∀ e ∈ st.cache.items, findEntry e.1 st.inner = some e.2) :
    (applyOp st op).inner.WF ∧
      (∀ e ∈ (applyOp st op).cache.items,
        findEntry e.1 (applyOp st op).inner = some e.2) := by
  cases op with
  | putOp sp k v =>
    refine ⟨insEntry_pairwise _ _ _ hw, ?_⟩
    intro e he
    rcases mem_cache_of_putc he with rfl | ⟨he', hne⟩
    · exact findEntry_insEntry_self _ _ _
    · rw [show (applyOp st (.putOp sp k v)).inner = insEntry (sp, k) v st.inner from rfl,
        findEntry_insEntry_ne _ _ _ _ hne]
      exact hc e he'
  | delOp sp k =>
    refine ⟨delEntry_pairwise _ _ hw, ?_⟩
    intro e he
    have he0 : e ∈ st.cache.items.filter (fun e => ¬ e.1 = (sp, k)) := he
    have hmem : e ∈ st.cache.items := List.mem_of_mem_filter he0
    have hne : ¬ e.1 = (sp, k) := by simpa using List.of_mem_filter he0
    rw [show (applyOp st (.delOp sp k)).inner = delEntry (sp, k) st.inner from rfl,
      findEntry_delEntry_ne _ _ _ hne]
    exact hc e hmem

theorem applyOps_inv (ops : List StoreOp) (st : InMemoryStore)
    (hw : st.inner.WF)
    (hc : ∀ e ∈ st.cache.items, findEntry e.1 st.inner = some e.2) :
    (applyOps ops st).inner.WF ∧
      (∀ e ∈ (applyOps ops st).cache.items,
        findEntry e.1 (applyOps ops st).inner = some e.2) := by
  induction ops generalizing st with
  | nil => exact ⟨hw, hc⟩
  | cons op ops ih =>
    rcases applyOp_inv st op hw hc with ⟨hw', hc'⟩
    exact ih (applyOp st op) hw' hc'

theorem applyOps_inner_get (ops : List StoreOp) (st : InMemoryStore)
    (sp k : Bytes) (hw : st.inner.WF) :
    (applyOps ops st).inner.get sp k =
      ops.foldl (fun acc op =>
        match op with
        | .putOp sp' k' v => if sp' = sp ∧ k' = k then some v else acc
        | .delOp sp' k' => if sp' = sp ∧ k' = k then none else acc)
        (st.inner.get sp k) := by
  induction ops generalizing st with
  | nil => rfl
  | cons op ops ih =>
    have hw' : (applyOp st op).inner.WF := by
      cases op with
      | putOp sp' k' v => exact insEntry_pairwise _ _ _ hw
      | delOp sp' k' => exact delEntry_pairwise _ _ hw
    show (applyOps ops (applyOp st op)).inner.get sp k = _
    rw [List.foldl_cons, ih (applyOp st op) hw']
    congr 1
    cases op with
    | putOp sp' k' v =>
      show StoreMap.get (st.inner.put sp' k' v) sp k =
        if sp' = sp ∧ k' = k then some v else st.inner.get sp k
      by_cases hkey : sp' = sp ∧ k' = k
      · rw [if_pos hkey]
        rcases hkey with ⟨rfl, rfl⟩
        exact findEntry_insEntry_self _ _ _
      · rw [if_neg hkey]
        apply findEntry_insEntry_ne
        intro hkk
        exact hkey ⟨(Prod.mk.injEq _ _ _ _ |>.mp hkk).1.symm,
          (Prod.mk.injEq _ _ _ _ |>.mp hkk).2.symm⟩
    | delOp sp' k' =>
      show StoreMap.get (st.inner.del sp' k') sp k =
        if sp' = sp ∧ k' = k then none else st.inner.get sp k
      by_cases hkey : sp' = sp ∧ k' = k
      · rw [if_pos hkey]
        rcases hkey with ⟨rfl, rfl⟩
        exact findEntry_delEntry_self _ _ hw
      · rw [if_neg hkey]
        apply findEntry_delEntry_ne
        intro hkk
        exact hkey ⟨(Prod.mk.injEq _ _ _ _ |>.mp hkk).1.symm,
          (Prod.mk.injEq _ _ _ _ |>.mp hkk).2.symm⟩

/-! ## Claim theorems -/

/-- C7: Last-operation-wins — for every sequence of `put(space, k, v)` and
`del(space, k)` operations applied sequentially to a single `InMemoryStore`
(with its LRU cache of any constructible capacity), the final
`get(space, k)` returns the value of the last put to `(space, k)`, or `none`
if the last operation on `(space, k)` was a del or no operation touched it. -/
theorem c7_last_operation_wins (ops : List StoreOp) (cap : ℕ+) (sp k : Bytes) :
    ((applyOps ops (InMemoryStore.new cap)).get sp k).1 = specFinalGet ops sp k := by
  have hw : (InMemoryStore.new cap).inner.WF := List.Pairwise.nil
  have hc : ∀ e ∈ (InMemoryStore.new cap).cache.items,
      findEntry e.1 (InMemoryStore.new cap).inner = some e.2 := by
    intro e he
    simp [InMemoryStore.new, Lru.new] at he
  rcases applyOps_inv ops _ hw hc with ⟨hw', hc'⟩
  rw [get_fst_of_coherent _ _ _ hc', applyOps_inner_get ops _ sp k hw]
  rfl

/-- C1: the WAL round-trip fails on deletes — `InMemoryStore::del` appends no
tombstone record, so after `put(kv, "a", 0x01); del(kv, "a")` on a store
opened with a fresh WAL, the original store answers `get(kv, "a") = none`
while a store reopened from the same WAL file answers `some [0x01]`,
resurrecting the deleted key (the spec requires `none`, its scenario 1). -/
theorem c1_wal_delete_lost :
    ((InMemoryStore.withWal [] 16).map (fun st0 =>
      let st2 := (st0.put (strBytes "kv") (strBytes "a") [mkByte 1]).del
        (strBytes "kv") (strBytes "a")
      ((st2.get (strBytes "kv") (strBytes "a")).1,
       (InMemoryStore.withWal (st2.wal.getD []) 16).map (fun st3 =>
         (st3.get (strBytes "kv") (strBytes "a")).1)))) =
    some (none, some (some [mkByte 1])) := by
  rfl

/-- C2: the unique-index check does not detect duplicates — for the unique
index `users.email`, inserting `("a@x", "1")` and then `("a@x", "2")` both
succeed (the code only `get`s the full composite key `value#row`, so a second
row with the same indexed value passes), leaving two entries under the
indexed value `"a@x"` where the claim requires an
`Invalid("unique constraint violation")` failure and at most one entry. -/
theorem c2_unique_violation_not_detected :
    (let idx : SecondaryIndex := ⟨"users.email", "users", "email", true⟩
     ((idx.insert StoreMap.empty (strBytes "a@x") (strBytes "1")).toOption.map
       (fun m1 => (idx.insert m1 (strBytes "a@x") (strBytes "2")).toOption.map
         (fun m2 => (m2.scanPrefix idx.indexSpace (strBytes "a@x")).length)))) =
    some (some 2) := by
  rfl

theorem tmFind_tmInsert_self (ts : List (ℕ × Transaction)) (id : ℕ)
    (txn : Transaction) : tmFind (tmInsert ts id txn) id = some txn := by
  simp [tmFind, tmInsert]

theorem wsGet_wsInsert_self (ws : List (SKey × Option Bytes)) (k : SKey)
    (v : Option Bytes) : wsGet (wsInsert ws k v) k = some v := by
  simp [wsGet, wsInsert]

/-- C4 counterexample: the claim that every operation on a non-Active
transaction fails with `Invalid("transaction not active")` is false —
`Transaction::get` performs no state check (on a Committed transaction it
returns `Ok`), and `TransactionManager::abort` happily re-transitions a
Committed transaction to Aborted and returns `Ok`. -/
theorem c4_nonactive_ops_not_all_rejected :
    ((Transaction.mk 1 .committed [] [] 0).get StoreMap.empty
        (strBytes "kv") (strBytes "a")).1 = .ok none ∧
    ((TransactionManager.mk [(1, Transaction.mk 1 .committed [] [] 0)] 2).abort
        1).toOption.map
      (fun m2 => (tmFind m2.transactions 1).map (·.state)) =
      some (some .aborted) := by
  exact ⟨rfl, rfl⟩

/-- C4 (amended): `put`, `delete` and `commit` on a non-Active transaction
fail with `Invalid("Transaction is not active")` and change nothing, but
`get` performs no state check (it behaves exactly as on an Active
transaction, returning the pending write-set value or reading storage), and
`abort` re-marks any present transaction Aborted regardless of its previous
state, so a transaction does not transition to a terminal state exactly
once. -/
theorem c4_nonactive_state_machine (txn : Transaction)
    (h : ¬ txn.state = .active) :
    (∀ sp k v, txn.put sp k v = .error (.invalid "Transaction is not active")) ∧
    (∀ sp k, txn.delete sp k = .error (.invalid "Transaction is not active")) ∧
    (∀ (mgr : TransactionManager) (st : StoreMap) (id : ℕ),
      tmFind mgr.transactions id = some txn →
      mgr.commit st id = .error (.invalid "Transaction is not active")) ∧
    (∀ (st : StoreMap) (sp k : Bytes),
      (txn.get st sp k).1 = .ok ((wsGet txn.write_set (sp, k)).getD (st.get sp k))) ∧
    (∀ (mgr : TransactionManager) (id : ℕ),
      tmFind mgr.transactions id = some txn →
      (mgr.abort id).toOption.map
        (fun m2 => (tmFind m2.transactions id).map (·.state)) =
        some (some .aborted)) := by
  refine ⟨?_, ?_, ?_, ?_, ?_⟩
  · intro sp k v
    simp [Transaction.put, h]
  · intro sp k
    simp [Transaction.delete, h]
  · intro mgr st id hfind
    simp [TransactionManager.commit, hfind, h]
  · intro st sp k
    unfold Transaction.get
    cases hw : wsGet txn.write_set (sp, k) with
    | some pending => simp [hw]
    | none => simp [hw]
  · intro mgr id hfind
    unfold TransactionManager.abort
    rw [hfind]
    show some ((tmFind (tmInsert mgr.transactions id
      { txn with state := .aborted }) id).map (·.state)) = some (some .aborted)
    rw [tmFind_tmInsert_self]
    rfl

/-- C4 witness: the amended theorem applied to a concrete Committed
transaction. -/
theorem c4_nonactive_state_machine_witness :
    (Transaction.mk 1 .committed [] [] 0).put (strBytes "kv") (strBytes "a")
      [] = .error (.invalid "Transaction is not active") :=
  (c4_nonactive_state_machine (Transaction.mk 1 .committed [] [] 0)
    (by decide)).1 (strBytes "kv") (strBytes "a") []

/-- C8: Read-your-own-writes — on an Active transaction, after
`put(space, k, v)` a `get(storage, space, k)` returns `Some v`, after
`delete(space, k)` it returns `None`, regardless of the underlying storage;
and only when `(space, k)` is absent from the write set does `get` read
through to storage and record `(space, k)` in the read set (a write-set hit
leaves the transaction untouched). -/
theorem c8_read_your_own_writes (txn : Transaction) (h : txn.state = .active)
    (st : StoreMap) (sp k : Bytes) :
    (∀ v, (txn.put sp k v).toOption.map (fun t2 => (t2.get st sp k).1) =
      some (.ok (some v))) ∧
    ((txn.delete sp k).toOption.map (fun t2 => (t2.get st sp k).1) =
      some (.ok none)) ∧
    (wsGet txn.write_set (sp, k) = none →
      txn.get st sp k = (.ok (st.get sp k),
        { txn with read_set := rsInsert txn.read_set (sp, k) })) ∧
    (∀ pending, wsGet txn.write_set (sp, k) = some pending →
      txn.get st sp k = (.ok pending, txn)) := by
  refine ⟨?_, ?_, ?_, ?_⟩
  · intro v
    unfold Transaction.put
    rw [if_neg (by simp [h])]
    show some ((Transaction.get { txn with
      write_set := wsInsert txn.write_set (sp, k) (some v) } st sp k).1) = _
    unfold Transaction.get
    rw [wsGet_wsInsert_self]
  · unfold Transaction.delete
    rw [if_neg (by simp [h])]
    show some ((Transaction.get { txn with
      write_set := wsInsert txn.write_set (sp, k) none } st sp k).1) = _
    unfold Transaction.get
    rw [wsGet_wsInsert_self]
  · intro hnone
    unfold Transaction.get
    rw [hnone]
  · intro pending hsome
    unfold Transaction.get
    rw [hsome]

/-- C8 witness: the theorem applied to a fresh Active transaction over the
empty storage. -/
theorem c8_read_your_own_writes_witness :
    ((Transaction.new 1 0).put (strBytes "kv") (strBytes "a")
      [mkByte 7]).toOption.map
      (fun t2 => (t2.get StoreMap.empty (strBytes "kv") (strBytes "a")).1) =
      some (.ok (some [mkByte 7])) :=
  (c8_read_your_own_writes (Transaction.new 1 0) rfl StoreMap.empty
    (strBytes "kv") (strBytes "a")).1 [mkByte 7]

/-- C5 counterexample: the claim that every WHERE comparison with a Null side
evaluates to false is wrong — on the empty row (so the column `c` reads as
Null), `c <> 'x'` evaluates to **true** (rows are kept), `c >= 5` evaluates
to **true**, and `c = NULL` evaluates to **true**. -/
theorem c5_null_comparison_counterexample :
    eval_simple_where (Json.obj []) (.binaryOp (.identExpr "c") .notEqOp
      (.valueExpr (.singleQuoted "x"))) = .ok true ∧
    eval_simple_where (Json.obj []) (.binaryOp (.identExpr "c") .gtEqOp
      (.valueExpr (.number 5))) = .ok true ∧
    eval_simple_where (Json.obj []) (.binaryOp (.identExpr "c") .eqOp
      (.valueExpr .nullLit)) = .ok true := by
  exact ⟨rfl, rfl, rfl⟩

/-- C5 (amended): missing columns (and column reads on non-object rows) do
evaluate to Null, but the comparison semantics against Null follows
`PartialEq`/`compare_values` (which returns `Equal` for any pairing
involving Null): with both sides Null, `=`, `<=`, `>=` yield true and `<>`,
`<`, `>` yield false; with exactly one side Null, `=`, `<`, `>` yield false
and `<>`, `<=`, `>=` yield true.  Rows are therefore *kept* by `<>`, `<=`
and `>=` predicates whose column is missing. -/
theorem c5_null_comparison_semantics (row : Json) (l r : SqlExpr)
    (lv rv : Json) (op : SqlBinOp)
    (hl : value_of row l = .ok lv) (hr : value_of row r = .ok rv) :
    (∀ name, row.getField name = none →
      value_of row (.identExpr name) = .ok .null) ∧
    (lv = .null → rv = .null →
      eval_simple_where row (.binaryOp l op r) = .ok (match op with
        | .eqOp => true
        | .notEqOp => false
        | .gtOp => false
        | .ltOp => false
        | .gtEqOp => true
        | .ltEqOp => true)) ∧
    (lv = .null → ¬ rv = .null →
      eval_simple_where row (.binaryOp l op r) = .ok (match op with
        | .eqOp => false
        | .notEqOp => true
        | .gtOp => false
        | .ltOp => false
        | .gtEqOp => true
        | .ltEqOp => true)) ∧
    (¬ lv = .null → rv = .null →
      eval_simple_where row (.binaryOp l op r) = .ok (match op with
        | .eqOp => false
        | .notEqOp => true
        | .gtOp => false
        | .ltOp => false
        | .gtEqOp => true
        | .ltEqOp => true)) := by
  have heval : ∀ b, ((match op with
      | .eqOp => .ok (jsonEq lv rv)
      | .notEqOp => .ok (! jsonEq lv rv)
      | .gtOp => .ok (compare_values lv rv == .gt)
      | .ltOp => .ok (compare_values lv rv == .lt)
      | .gtEqOp => .ok (! (compare_values lv rv == .lt))
      | .ltEqOp => .ok (! (compare_values lv rv == .gt)) :
        Except DbError Bool)) = b →
      eval_simple_where row (.binaryOp l op r) = b := by
    intro b hb
    unfold eval_simple_where
    rw [hl]
    show (value_of row r).bind _ = b
    rw [hr]
    exact hb
  refine ⟨?_, ?_, ?_, ?_⟩
  · intro name hname
    simp [value_of, hname]
  · rintro rfl rfl
    apply heval
    cases op <;> rfl
  · rintro rfl hrv
    apply heval
    have hje : jsonEq .null rv = false := by
      cases rv with
      | null => exact absurd rfl hrv
      | bool b => rfl
      | num n => rfl
      | str s => rfl
      | arr xs => rfl
      | obj fs => rfl
    have hcv : compare_values .null rv = .eq := by
      cases rv <;> rfl
    cases op <;> simp only [hje, hcv] <;> rfl
  · rintro hlv rfl
    apply heval
    have hje : jsonEq lv .null = false := by
      cases lv with
      | null => exact absurd rfl hlv
      | bool b => rfl
      | num n => rfl
      | str s => rfl
      | arr xs => rfl
      | obj fs => rfl
    have hcv : compare_values lv .null = .eq := by
      cases lv <;> rfl
    cases op <;> simp only [hje, hcv] <;> rfl

/-- C5 witness: the amended theorem applied to the empty row with
`c <> 'x'` (a missing column read against a string literal). -/
theorem c5_null_comparison_semantics_witness :
    eval_simple_where (Json.obj []) (.binaryOp (.identExpr "c") .notEqOp
      (.valueExpr (.singleQuoted "x"))) = .ok true :=
  (c5_null_comparison_semantics (Json.obj []) (.identExpr "c")
    (.valueExpr (.singleQuoted "x")) .null (.str "x") .notEqOp rfl
    rfl).2.2.1 rfl (by intro hx; cases hx)

theorem findIdx?_hash_aux (w r : Bytes) (hw : hashByte ∉ w) (i : ℕ) :
    List.findIdx? (fun b => b = hashByte) (w ++ hashByte :: r) i =
      some (i + w.length) := by
  induction w generalizing i with
  | nil => simp [List.findIdx?_cons]
  | cons a as ih =>
    have ha : ¬ a = hashByte := fun hh => hw (by simp [hh])
    rw [List.cons_append, List.findIdx?_cons, if_neg (by simpa using ha),
      ih (fun hh => hw (List.mem_cons_of_mem _ hh)) (i + 1)]
    congr 1
    simp [List.length_cons]
    omega

theorem drop_hash (w r : Bytes) :
    (w ++ hashByte :: r).drop (w.length + 1) = r := by
  induction w with
  | nil => simp
  | cons a as ih => simp [ih]

theorem prefix_of_hashfree {v w r : Bytes} (hv : hashByte ∉ v)
    (hw : hashByte ∉ w) (h : v <+: (w ++ hashByte :: r)) : v <+: w := by
  induction v generalizing w with
  | nil => exact List.nil_prefix
  | cons a as ih =>
    cases w with
    | nil =>
      rw [List.nil_append] at h
      rcases List.cons_prefix_cons.mp h with ⟨rfl, _⟩
      exact absurd (List.mem_cons_self _ _) hv
    | cons b bs =>
      rw [List.cons_append] at h
      rcases List.cons_prefix_cons.mp h with ⟨rfl, htail⟩
      have htl := ih (fun hh => hv (List.mem_cons_of_mem _ hh))
        (fun hh => hw (List.mem_cons_of_mem _ hh)) htail
      exact List.cons_prefix_cons.mpr ⟨rfl, htl⟩

/-- C6 counterexample: `find_rows` is not exact — after inserting the single
entry `("ab", "r")` into a fresh index, `find_rows("a")` returns `["r"]`
although no entry for the indexed value `"a"` with row `"r"` exists (the
prefix scan picks up the entry of `"ab"`, whose value merely extends the
query). -/
theorem c6_find_rows_prefix_false_positive :
    (let idx : SecondaryIndex := ⟨"t.c", "t", "c", false⟩
     (idx.insert StoreMap.empty (strBytes "ab") (strBytes "r")).toOption.map
       (fun m1 => (idx.findRows m1 (strBytes "a"),
         m1.get idx.indexSpace (strBytes "a" ++ hashByte :: strBytes "r")))) =
    some ([strBytes "r"], none) := by
  rfl

/-- C6 (amended): when every key of the index space has the insert shape
`value ++ '#' ++ row` with a `'#'`-free value — as `SecondaryIndex::insert`
produces for `'#'`-free indexed values — and the query value is `'#'`-free,
`find_rows(v)` returns exactly the row keys of entries whose indexed value
has `v` as a (not necessarily proper) prefix: all rows recorded under `v`
itself, but also rows recorded under values that merely extend `v`.  The
claim's exactness (no row from a different value) therefore fails for
prefix-extending values, and holds only in this weaker prefix sense. -/
theorem c6_find_rows_returns_prefix_matches (idx : SecondaryIndex)
    (st : StoreMap) (hwf : st.WF) (v : Bytes) (hv : hashByte ∉ v)
    (hent : ∀ k val, st.get idx.indexSpace k = some val →
      ∃ w r, k = w ++ hashByte :: r ∧ hashByte ∉ w) (rk : Bytes) :
    rk ∈ idx.findRows st v ↔
      ∃ w, hashByte ∉ w ∧ v <+: w ∧
        (st.get idx.indexSpace (w ++ hashByte :: rk)).isSome := by
  constructor
  · intro hmem
    rcases List.mem_filterMap.mp hmem with ⟨e, hel, hfe⟩
    obtain ⟨k, val⟩ := e
    rcases (mem_scanPrefix hwf _ _ _ _).mp hel with ⟨hget, hpre⟩
    rcases hent k val hget with ⟨w, r, rfl, hwfree⟩
    rw [show List.findIdx? (fun b => b = hashByte) (w ++ hashByte :: r) =
      some (0 + w.length) from findIdx?_hash_aux w r hwfree 0] at hfe
    have hr : r = rk := by
      have : some ((w ++ hashByte :: r).drop (0 + w.length + 1)) = some rk := hfe
      rw [Nat.zero_add, drop_hash] at this
      exact Option.some.inj this
    subst hr
    refine ⟨w, hwfree, ?_, by rw [hget]; rfl⟩
    exact prefix_of_hashfree hv hwfree ((startsWith_iff _ _).mp hpre)
  · rintro ⟨w, hwfree, hpre, hsome⟩
    rcases Option.isSome_iff_exists.mp hsome with ⟨val, hval⟩
    apply List.mem_filterMap.mpr
    refine ⟨(w ++ hashByte :: rk, val), ?_, ?_⟩
    · exact (mem_scanPrefix hwf _ _ _ _).mpr
        ⟨hval, (startsWith_iff _ _).mpr (hpre.trans (List.prefix_append _ _))⟩
    · show (match List.findIdx? (fun b => b = hashByte) (w ++ hashByte :: rk) with
        | some pos => some ((w ++ hashByte :: rk).drop (pos + 1))
        | none => none) = some rk
      rw [findIdx?_hash_aux w rk hwfree 0, Nat.zero_add]
      show some ((w ++ hashByte :: rk).drop (w.length + 1)) = some rk
      rw [drop_hash]

/-- C6 witness: the amended theorem applied to the one-entry index of the
counterexample — row `"r"`, recorded under `"ab"`, is returned by
`find_rows("a")`. -/
theorem c6_find_rows_returns_prefix_matches_witness :
    strBytes "r" ∈ (SecondaryIndex.mk "t.c" "t" "c" false).findRows
      (StoreMap.empty.put (SecondaryIndex.mk "t.c" "t" "c" false).indexSpace
        (strBytes "ab" ++ hashByte :: strBytes "r") [mkByte 49])
      (strBytes "a") := by
  have hent : ∀ k val,
      (StoreMap.empty.put (SecondaryIndex.mk "t.c" "t" "c" false).indexSpace
        (strBytes "ab" ++ hashByte :: strBytes "r") [mkByte 49]).get
        (SecondaryIndex.mk "t.c" "t" "c" false).indexSpace k = some val →
      ∃ w r, k = w ++ hashByte :: r ∧ hashByte ∉ w := by
    intro k val h
    by_cases hk : ((SecondaryIndex.mk "t.c" "t" "c" false).indexSpace, k) =
        ((SecondaryIndex.mk "t.c" "t" "c" false).indexSpace,
          strBytes "ab" ++ hashByte :: strBytes "r")
    · refine ⟨strBytes "ab", strBytes "r", ?_, by decide⟩
      exact congrArg Prod.snd hk
    · rw [show (StoreMap.empty.put
          (SecondaryIndex.mk "t.c" "t" "c" false).indexSpace
          (strBytes "ab" ++ hashByte :: strBytes "r") [mkByte 49]).get
          (SecondaryIndex.mk "t.c" "t" "c" false).indexSpace k =
          findEntry ((SecondaryIndex.mk "t.c" "t" "c" false).indexSpace, k)
            [(((SecondaryIndex.mk "t.c" "t" "c" false).indexSpace,
              strBytes "ab" ++ hashByte :: strBytes "r"), [mkByte 49])]
          from rfl] at h
      unfold findEntry at h
      rw [if_neg hk] at h
      exact absurd h (by simp [findEntry])
  exact (c6_find_rows_returns_prefix_matches
    (SecondaryIndex.mk "t.c" "t" "c" false) _
    (List.pairwise_singleton _ _) (strBytes "a") (by decide) hent
    (strBytes "r")).mpr
    ⟨strBytes "ab", by decide, by decide, by rfl⟩

/-! ## Lemmas: base64 round-trip -/

theorem b64Index_b64Char {n : ℕ} (h : n < 64) : b64Index (b64Char n) = some n := by
  have hall : ∀ i : Fin 64, b64Index (b64Char i.val) = some i.val := by decide
  exact hall ⟨n, h⟩

theorem b64Char_ne_pad {n : ℕ} (h : n < 64) : ¬ b64Char n = '=' := by
  have hall : ∀ i : Fin 64, ¬ b64Char i.val = '=' := by decide
  exact hall ⟨n, h⟩

theorem b64encode_ne_nil {bs : Bytes} (h : ¬ bs = []) : ¬ b64encode bs = [] := by
  match bs with
  | [] => exact absurd rfl h
  | [a] => exact fun hh => List.cons_ne_nil _ _ hh
  | [a, b] => exact fun hh => List.cons_ne_nil _ _ hh
  | a :: b :: c :: rest => exact fun hh => List.cons_ne_nil _ _ hh

theorem b64_roundtrip : ∀ bs : Bytes, b64decode (b64encode bs) = some bs
  | [] => rfl
  | [a] => by
    have ha := a.isLt
    show (b64Index (b64Char (a.val / 4))).bind (fun s1 =>
      (b64Index (b64Char (a.val % 4 * 16))).bind (fun s2 =>
        some [mkByte (s1 * 4 + s2 / 16)])) = some [a]
    rw [b64Index_b64Char (by omega : a.val / 4 < 64),
        b64Index_b64Char (by omega : a.val % 4 * 16 < 64)]
    show some [mkByte (a.val / 4 * 4 + a.val % 4 * 16 / 16)] = some [a]
    refine congrArg some (congrArg (· :: []) (Fin.ext ?_))
    show (a.val / 4 * 4 + a.val % 4 * 16 / 16) % 256 = a.val
    omega
  | [a, b] => by
    have ha := a.isLt
    have hb := b.isLt
    rw [show b64encode [a, b] = [b64Char (a.val / 4),
      b64Char (a.val % 4 * 16 + b.val / 16), b64Char (b.val % 16 * 4), '='] from rfl,
      b64decode]
    rw [if_pos rfl, if_pos rfl, if_neg (b64Char_ne_pad (by omega : b.val % 16 * 4 < 64))]
    rw [b64Index_b64Char (by omega : a.val / 4 < 64),
        b64Index_b64Char (by omega : a.val % 4 * 16 + b.val / 16 < 64),
        b64Index_b64Char (by omega : b.val % 16 * 4 < 64)]
    show some [mkByte (a.val / 4 * 4 + (a.val % 4 * 16 + b.val / 16) / 16),
      mkByte ((a.val % 4 * 16 + b.val / 16) % 16 * 16 + b.val % 16 * 4 / 4)] = some [a, b]
    refine congrArg some ?_
    congr 1
    · exact Fin.ext (by show (a.val / 4 * 4 + (a.val % 4 * 16 + b.val / 16) / 16) % 256 = a.val; omega)
    · congr 1
      exact Fin.ext (by show ((a.val % 4 * 16 + b.val / 16) % 16 * 16 + b.val % 16 * 4 / 4) % 256 = b.val; omega)
  | a :: b :: c :: rest => by
    have ha := a.isLt
    have hb := b.isLt
    have hc := c.isLt
    have ih := b64_roundtrip rest
    rw [show b64encode (a :: b :: c :: rest) = b64Char (a.val / 4) ::
      b64Char (a.val % 4 * 16 + b.val / 16) :: b64Char (b.val % 16 * 4 + c.val / 64) ::
      b64Char (c.val % 64) :: b64encode rest from rfl, b64decode]
    by_cases hrest : rest = []
    · subst hrest
      rw [if_pos (show b64encode ([] : Bytes) = [] from rfl),
        if_neg (b64Char_ne_pad (by omega : c.val % 64 < 64))]
      rw [b64Index_b64Char (by omega : a.val / 4 < 64),
          b64Index_b64Char (by omega : a.val % 4 * 16 + b.val / 16 < 64),
          b64Index_b64Char (by omega : b.val % 16 * 4 + c.val / 64 < 64),
          b64Index_b64Char (by omega : c.val % 64 < 64)]
      show some [mkByte (a.val / 4 * 4 + (a.val % 4 * 16 + b.val / 16) / 16),
        mkByte ((a.val % 4 * 16 + b.val / 16) % 16 * 16 + (b.val % 16 * 4 + c.val / 64) / 4),
        mkByte ((b.val % 16 * 4 + c.val / 64) % 4 * 64 + c.val % 64)] = some [a, b, c]
      refine congrArg some ?_
      congr 1
      · exact Fin.ext (by show (a.val / 4 * 4 + (a.val % 4 * 16 + b.val / 16) / 16) % 256 = a.val; omega)
      congr 1
      · exact Fin.ext (by show ((a.val % 4 * 16 + b.val / 16) % 16 * 16 + (b.val % 16 * 4 + c.val / 64) / 4) % 256 = b.val; omega)
      congr 1
      exact Fin.ext (by show ((b.val % 16 * 4 + c.val / 64) % 4 * 64 + c.val % 64) % 256 = c.val; omega)
    · rw [if_neg (b64encode_ne_nil hrest)]
      rw [b64Index_b64Char (by omega : a.val / 4 < 64),
          b64Index_b64Char (by omega : a.val % 4 * 16 + b.val / 16 < 64),
          b64Index_b64Char (by omega : b.val % 16 * 4 + c.val / 64 < 64),
          b64Index_b64Char (by omega : c.val % 64 < 64)]
      show (b64decode (b64encode rest)).bind (fun tail =>
        some (mkByte (a.val / 4 * 4 + (a.val % 4 * 16 + b.val / 16) / 16) ::
          mkByte ((a.val % 4 * 16 + b.val / 16) % 16 * 16 + (b.val % 16 * 4 + c.val / 64) / 4) ::
          mkByte ((b.val % 16 * 4 + c.val / 64) % 4 * 64 + c.val % 64) :: tail)) =
        some (a :: b :: c :: rest)
      rw [ih]
      show some (mkByte (a.val / 4 * 4 + (a.val % 4 * 16 + b.val / 16) / 16) ::
          mkByte ((a.val % 4 * 16 + b.val / 16) % 16 * 16 + (b.val % 16 * 4 + c.val / 64) / 4) ::
          mkByte ((b.val % 16 * 4 + c.val / 64) % 4 * 64 + c.val % 64) :: rest) =
        some (a :: b :: c :: rest)
      refine congrArg some ?_
      congr 1
      · exact Fin.ext (by show (a.val / 4 * 4 + (a.val % 4 * 16 + b.val / 16) / 16) % 256 = a.val; omega)
      congr 1
      · exact Fin.ext (by show ((a.val % 4 * 16 + b.val / 16) % 16 * 16 + (b.val % 16 * 4 + c.val / 64) / 4) % 256 = b.val; omega)
      congr 1
      exact Fin.ext (by show ((b.val % 16 * 4 + c.val / 64) % 4 * 64 + c.val % 64) % 256 = c.val; omega)

/-! ## Lemmas and claim theorems: snapshot/restore (C3) -/



theorem restore_eq_foldput (recs : List SnapshotRec) (st : StoreMap)
    (h : ∀ rec ∈ recs, (b64decode rec.key_b64).isSome ∧ (b64decode rec.val_b64).isSome) :
    restore recs st = some ((recs.map (fun rec =>
      (rec.space, (b64decode rec.key_b64).getD [], (b64decode rec.val_b64).getD []))).foldl
      (fun m r => m.put r.1 r.2.1 r.2.2) st) := by
  induction recs generalizing st with
  | nil => rfl
  | cons rec recs ih =>
    rcases h rec (by simp) with ⟨hk, hv⟩
    rcases Option.isSome_iff_exists.mp hk with ⟨kb, hkb⟩
    rcases Option.isSome_iff_exists.mp hv with ⟨vb, hvb⟩
    unfold restore
    rw [List.foldlM_cons]
    show ((b64decode rec.key_b64).bind (fun key =>
      (b64decode rec.val_b64).bind (fun val =>
        some (st.put rec.space key val)))).bind
      (fun st2 => List.foldlM _ st2 recs) = _
    rw [hkb, hvb]
    show List.foldlM _ (st.put rec.space kb vb) recs = _
    have := ih (st.put rec.space kb vb) (fun r hr => h r (by simp [hr]))
    unfold restore at this
    rw [this, List.map_cons, List.foldl_cons, hkb, hvb]
    rfl

theorem foldput_get_of_no_key (recs : List (Bytes × Bytes × Bytes)) (st : StoreMap)
    (sp k : Bytes) (h : ∀ r ∈ recs, ¬ (r.1 = sp ∧ r.2.1 = k)) :
    (recs.foldl (fun m r => m.put r.1 r.2.1 r.2.2) st).get sp k = st.get sp k := by
  induction recs generalizing st with
  | nil => rfl
  | cons r recs ih =>
    rw [List.foldl_cons, ih _ (fun r2 hr2 => h r2 (by simp [hr2]))]
    apply findEntry_insEntry_ne
    intro hkk
    exact h r (by simp)
      ⟨(congrArg Prod.fst hkk).symm, (congrArg Prod.snd hkk).symm⟩

theorem foldput_get_of_key (recs : List (Bytes × Bytes × Bytes)) (st : StoreMap)
    (sp k v : Bytes)
    (hmem : ∃ r ∈ recs, r.1 = sp ∧ r.2.1 = k)
    (hfun : ∀ r ∈ recs, r.1 = sp → r.2.1 = k → r.2.2 = v) :
    (recs.foldl (fun m r => m.put r.1 r.2.1 r.2.2) st).get sp k = some v := by
  induction recs generalizing st with
  | nil =>
    rcases hmem with ⟨r, hr, _⟩
    simp at hr
  | cons r recs ih =>
    rw [List.foldl_cons]
    by_cases hany : ∃ r2 ∈ recs, r2.1 = sp ∧ r2.2.1 = k
    · exact ih _ hany (fun r2 h1 h2 h3 => hfun r2 (List.mem_cons_of_mem _ h1) h2 h3)
    · rcases hmem with ⟨r0, hr0, hr0k⟩
      rcases List.mem_cons.mp hr0 with rfl | hmem2
      · rw [foldput_get_of_no_key recs _ sp k
          (fun r2 hr2 hc => hany ⟨r2, hr2, hc⟩)]
        have hval := hfun r0 (by simp) hr0k.1 hr0k.2
        obtain ⟨r1, r2, r3⟩ := r0
        obtain ⟨hs, hkk⟩ := hr0k
        simp only at hs hkk hval
        subst hs hkk hval
        exact findEntry_insEntry_self _ _ _
      · exact absurd ⟨r0, hmem2, hr0k⟩ hany

theorem foldput_WF (recs : List (Bytes × Bytes × Bytes)) (st : StoreMap)
    (hw : st.WF) : (recs.foldl (fun m r => m.put r.1 r.2.1 r.2.2) st).WF := by
  induction recs generalizing st with
  | nil => exact hw
  | cons r recs ih => exact ih _ (insEntry_pairwise _ _ _ hw)

theorem mem_decoded_snapshot (m : StoreMap) (hwf : m.WF) (sp k v : Bytes) :
    (sp, k, v) ∈ (write_snapshot m).map (fun rec =>
      (rec.space, (b64decode rec.key_b64).getD [], (b64decode rec.val_b64).getD [])) ↔
    ((sp = spaceCatalog ∨ sp = spaceData ∨ sp = spaceKv) ∧ m.get sp k = some v) := by
  constructor
  · intro h
    rcases List.mem_map.mp h with ⟨rec, hrec, heq⟩
    unfold write_snapshot at hrec
    rcases List.mem_flatten.mp hrec with ⟨group, hgroup, hrecg⟩
    rcases List.mem_map.mp hgroup with ⟨sp0, hsp0, rfl⟩
    rcases List.mem_map.mp hrecg with ⟨e, he, rfl⟩
    obtain ⟨e1, e2⟩ := e
    simp only at heq
    rw [b64_roundtrip, b64_roundtrip] at heq
    have hsp : sp0 = sp := congrArg Prod.fst heq
    have hk : e1 = k := congrArg (fun x => x.2.1) heq
    have hv : e2 = v := congrArg (fun x => x.2.2) heq
    subst hsp hk hv
    rcases (mem_scanPrefix hwf _ _ _ _).mp he with ⟨hget, _⟩
    refine ⟨?_, hget⟩
    simp only [List.mem_cons, List.mem_singleton] at hsp0
    rcases hsp0 with rfl | rfl | rfl | hfalse
    · exact Or.inl rfl
    · exact Or.inr (Or.inl rfl)
    · exact Or.inr (Or.inr rfl)
    · simp at hfalse
  · rintro ⟨hsp, hget⟩
    apply List.mem_map.mpr
    refine ⟨⟨sp, b64encode k, b64encode v⟩, ?_, ?_⟩
    · unfold write_snapshot
      apply List.mem_flatten.mpr
      refine ⟨(m.scanPrefix sp []).map (fun e =>
        SnapshotRec.mk sp (b64encode e.1) (b64encode e.2)), ?_, ?_⟩
      · apply List.mem_map.mpr
        refine ⟨sp, ?_, rfl⟩
        rcases hsp with rfl | rfl | rfl <;> simp
      · apply List.mem_map.mpr
        exact ⟨(k, v), (mem_scanPrefix hwf _ _ _ _).mpr ⟨hget, rfl⟩, rfl⟩
    · simp only
      rw [b64_roundtrip, b64_roundtrip]
      rfl




theorem findEntry_filter_of_space (l : List (SKey × Bytes)) (q : Bytes → Bool)
    (k : SKey) (hq : q k.1 = true) :
    findEntry k (l.filter (fun e => q e.1.1)) = findEntry k l := by
  induction l with
  | nil => rfl
  | cons e t ih =>
    rw [List.filter_cons]
    by_cases hk : k = e.1
    · rw [if_pos (show q e.1.1 = true from by rw [← hk]; exact hq)]
      unfold findEntry
      rw [if_pos hk, if_pos hk]
    · by_cases hPe : q e.1.1 = true
      · rw [if_pos hPe]
        unfold findEntry
        rw [if_neg hk, if_neg hk]
        exact ih
      · rw [if_neg hPe, ih,
          show findEntry k (e :: t) = if k = e.1 then some e.2 else findEntry k t
            from rfl,
          if_neg hk]

theorem findEntry_filter_of_other (l : List (SKey × Bytes)) (q : Bytes → Bool)
    (k : SKey) (hq : ¬ q k.1 = true) :
    findEntry k (l.filter (fun e => q e.1.1)) = none := by
  apply findEntry_eq_none_of_keys
  intro e he heq
  have hP := List.of_mem_filter he
  rw [heq] at hP
  exact hq hP

theorem scanPrefix_filter_space (l : StoreMap) (q : Bytes → Bool) (sp p : Bytes)
    (hq : q sp = true) :
    StoreMap.scanPrefix (List.filter (fun e => q e.1.1) l) sp p =
      l.scanPrefix sp p := by
  induction l with
  | nil => rfl
  | cons e t ih =>
    show StoreMap.scanPrefix (List.filter _ (e :: t)) sp p = _
    rw [List.filter_cons]
    by_cases hPe : q e.1.1 = true
    · rw [if_pos hPe]
      show List.filterMap _ (e :: List.filter _ t) = List.filterMap _ (e :: t)
      rw [List.filterMap_cons, List.filterMap_cons]
      cases hfe : (if e.1.1 = sp ∧ startsWith p e.1.2 = true
          then some (e.1.2, e.2) else none) with
      | none => exact ih
      | some b =>
        show b :: StoreMap.scanPrefix (List.filter (fun e => q e.1.1) t) sp p =
          b :: StoreMap.scanPrefix t sp p
        exact congrArg _ ih
    · rw [if_neg hPe]
      show StoreMap.scanPrefix (List.filter _ t) sp p = List.filterMap _ (e :: t)
      rw [List.filterMap_cons]
      have hcond : ¬ (e.1.1 = sp ∧ startsWith p e.1.2 = true) := by
        rintro ⟨h1, _⟩
        exact hPe (h1 ▸ hq)
      rw [if_neg hcond]
      exact ih




/-- C3 (amended): `snapshot` followed by `restore` into an empty engine
round-trips the entries exactly — `get` and `scan_prefix` over `catalog`,
`data` and `kv` agree with the originals — but `restore` performs **no**
index rebuild: it only `put`s the snapshotted records, so every space outside
those three (in particular every `index_<name>` space) is empty in the
restored engine, regardless of the index definitions in the catalog. -/
theorem c3_snapshot_restore_entries (m : StoreMap) (hwf : m.WF) :
    (restore (write_snapshot m) StoreMap.empty).isSome ∧
    ∀ m2, restore (write_snapshot m) StoreMap.empty = some m2 →
      (∀ sp, (sp = spaceCatalog ∨ sp = spaceData ∨ sp = spaceKv) →
        (∀ k, m2.get sp k = m.get sp k) ∧
        (∀ p, m2.scanPrefix sp p = m.scanPrefix sp p)) ∧
      (∀ sp, ¬ (sp = spaceCatalog ∨ sp = spaceData ∨ sp = spaceKv) →
        ∀ k, m2.get sp k = none) := by
  have hdec : ∀ rec ∈ write_snapshot m,
      (b64decode rec.key_b64).isSome ∧ (b64decode rec.val_b64).isSome := by
    intro rec hrec
    unfold write_snapshot at hrec
    rcases List.mem_flatten.mp hrec with ⟨g, hg, hrg⟩
    rcases List.mem_map.mp hg with ⟨sp0, hsp0g, rfl⟩
    rcases List.mem_map.mp hrg with ⟨e, heg, rfl⟩
    constructor
    · show (b64decode (b64encode e.1)).isSome = true
      rw [b64_roundtrip]
      rfl
    · show (b64decode (b64encode e.2)).isSome = true
      rw [b64_roundtrip]
      rfl
  have hres := restore_eq_foldput (write_snapshot m) StoreMap.empty hdec
  have hchar : ∀ sp k,
      ((sp = spaceCatalog ∨ sp = spaceData ∨ sp = spaceKv) →
        (((write_snapshot m).map (fun rec => (rec.space,
          (b64decode rec.key_b64).getD [], (b64decode rec.val_b64).getD []))).foldl
          (fun m r => m.put r.1 r.2.1 r.2.2) StoreMap.empty).get sp k = m.get sp k) ∧
      (¬ (sp = spaceCatalog ∨ sp = spaceData ∨ sp = spaceKv) →
        (((write_snapshot m).map (fun rec => (rec.space,
          (b64decode rec.key_b64).getD [], (b64decode rec.val_b64).getD []))).foldl
          (fun m r => m.put r.1 r.2.1 r.2.2) StoreMap.empty).get sp k = none) := by
    intro sp k
    constructor
    · intro hsp
      cases hmg : m.get sp k with
      | some v =>
        apply foldput_get_of_key
        · exact ⟨(sp, k, v), (mem_decoded_snapshot m hwf sp k v).mpr ⟨hsp, hmg⟩,
            rfl, rfl⟩
        · intro r hr h1 h2
          obtain ⟨r1, r2, r3⟩ := r
          simp only at h1 h2 ⊢
          have hc := ((mem_decoded_snapshot m hwf r1 r2 r3).mp hr).2
          rw [h1, h2, hmg] at hc
          exact (Option.some.inj hc).symm
      | none =>
        rw [foldput_get_of_no_key]
        · rfl
        · rintro r hr ⟨h1, h2⟩
          obtain ⟨r1, r2, r3⟩ := r
          simp only at h1 h2
          have hc := ((mem_decoded_snapshot m hwf r1 r2 r3).mp hr).2
          rw [h1, h2, hmg] at hc
          cases hc
    · intro hsp
      rw [foldput_get_of_no_key]
      · rfl
      · rintro r hr ⟨h1, h2⟩
        obtain ⟨r1, r2, r3⟩ := r
        simp only at h1 h2
        apply hsp
        rw [← h1]
        exact ((mem_decoded_snapshot m hwf r1 r2 r3).mp hr).1
  refine ⟨by rw [hres]; rfl, ?_⟩
  intro m2 hm2
  rw [hres] at hm2
  have hm2e := Option.some.inj hm2
  have hFwf : m2.WF := by
    rw [← hm2e]
    exact foldput_WF _ _ List.Pairwise.nil
  have hfil : m2 = List.filter (fun e => decide (e.1.1 = spaceCatalog ∨
      e.1.1 = spaceData ∨ e.1.1 = spaceKv)) m := by
    apply sorted_ext _ _ hFwf (hwf.sublist (List.filter_sublist _))
    intro key
    by_cases hsp : key.1 = spaceCatalog ∨ key.1 = spaceData ∨ key.1 = spaceKv
    · have h1 : findEntry key (List.filter (fun e => decide (e.1.1 = spaceCatalog ∨
          e.1.1 = spaceData ∨ e.1.1 = spaceKv)) m) = findEntry key m :=
        findEntry_filter_of_space m
          (fun x => decide (x = spaceCatalog ∨ x = spaceData ∨ x = spaceKv)) key
          (by simpa using hsp)
      have h0 := (hchar key.1 key.2).1 hsp
      rw [hm2e] at h0
      exact h0.trans h1.symm
    · have h1 : findEntry key (List.filter (fun e => decide (e.1.1 = spaceCatalog ∨
          e.1.1 = spaceData ∨ e.1.1 = spaceKv)) m) = none :=
        findEntry_filter_of_other m
          (fun x => decide (x = spaceCatalog ∨ x = spaceData ∨ x = spaceKv)) key
          (by simpa using hsp)
      have h0 := (hchar key.1 key.2).2 hsp
      rw [hm2e] at h0
      exact h0.trans h1.symm
  constructor
  · intro sp hsp
    constructor
    · intro k
      have h0 := (hchar sp k).1 hsp
      rw [hm2e] at h0
      exact h0
    · intro p
      rw [hfil]
      exact scanPrefix_filter_space m
        (fun x => decide (x = spaceCatalog ∨ x = spaceData ∨ x = spaceKv)) sp p
        (by simpa using hsp)
  · intro sp hsp
    intro k
    have h0 := (hchar sp k).2 hsp
    rw [hm2e] at h0
    exact h0


/-- C3 counterexample: an engine whose `data` space holds the row
`tbl/users/1` and whose index space `index_users.email` holds its entry
`a@x#1` (exactly one entry per (column value, row key)); after `snapshot`
and `restore` into an empty engine the index space is empty instead of
being rebuilt, refuting the claim's index clause. -/
theorem c3_restore_drops_index_spaces :
    (restore (write_snapshot ((StoreMap.empty.put spaceData
        (strBytes "tbl/users/1") (strBytes "r")).put
        (strBytes "index_users.email") (strBytes "a@x#1") [mkByte 49]))
      StoreMap.empty).map
      (fun m2 => (m2.scanPrefix (strBytes "index_users.email") [],
        (((StoreMap.empty.put spaceData (strBytes "tbl/users/1")
          (strBytes "r")).put (strBytes "index_users.email")
          (strBytes "a@x#1") [mkByte 49]).scanPrefix
          (strBytes "index_users.email") []))) =
    some ([], [(strBytes "a@x#1", [mkByte 49])]) := by
  rfl

/-- C3 witness: the amended theorem applied to a one-row engine. -/
theorem c3_snapshot_restore_entries_witness :
    (StoreMap.empty.put spaceData (strBytes "tbl/t/1") (strBytes "r")).WF ∧
    (restore (write_snapshot (StoreMap.empty.put spaceData (strBytes "tbl/t/1")
      (strBytes "r"))) StoreMap.empty).isSome :=
  ⟨List.pairwise_singleton _ _,
   (c3_snapshot_restore_entries (StoreMap.empty.put spaceData
     (strBytes "tbl/t/1") (strBytes "r")) (List.pairwise_singleton _ _)).1⟩

/-! ## Lemmas and claim theorems: document adapter (C9) -/

theorem jget_jput_self (st : JStore) (k : Bytes) (v : Json) :
    (st.jput k v).jget k = some v := by
  simp [JStore.jget, JStore.jput]

theorem docGet_no_expiry (st : JStore) (collection id : String) (now : Int) :
    docGet st collection id false now = st.jget (doc_key collection id) := by
  unfold docGet
  cases h : st.jget (doc_key collection id) with
  | some doc => simp
  | none => rfl

theorem find?_append_of_none {α : Type} (p : α → Bool) (l1 l2 : List α)
    (h : l1.find? p = none) : (l1 ++ l2).find? p = l2.find? p := by
  induction l1 with
  | nil => rfl
  | cons a t ih =>
    cases hp : p a with
    | true =>
      rw [List.find?_cons, hp] at h
      cases h
    | false =>
      rw [List.find?_cons, hp] at h
      rw [List.cons_append, List.find?_cons, hp]
      exact ih h

/-- C9 counterexample: inserting the document `{"_id": "x"}` with fresh
nanoid `"n"` returns `"n"` and stores the document under `doc/c/n`, but the
stored document's `_id` is still `"x"`, not the returned id — refuting the
claim that `get(collection, id, false)` returns a document whose `_id`
equals the returned id. -/
theorem c9_preexisting_id_not_returned :
    (insert_with_ttl [] "c" (Json.obj [("_id", Json.str "x")]) none "n" 0).1
      = "n" ∧
    (docGet (insert_with_ttl [] "c" (Json.obj [("_id", Json.str "x")]) none
        "n" 0).2 "c" "n" false 0).map (fun d => d.getField "_id") =
      some (some (Json.str "x")) ∧
    ¬ "x" = "n" := by
  exact ⟨rfl, rfl, by decide⟩

/-- C9 (amended): `insert` always draws a fresh id, stores the document
under `doc/<collection>/<fresh id>` and returns that id, and
`get(collection, returned id, false)` returns the stored document; the
stored `_id` equals the returned id exactly when the input document was an
object without an `_id` (the engine generates `_id` only when missing); a
pre-existing `_id` is kept unchanged, and a non-object document is stored
as-is with no `_id` at all. -/
theorem c9_document_insert_identity (st : JStore) (collection : String)
    (doc : Json) (freshId : String) (now : Int) :
    (docInsert st collection doc freshId now).1 = freshId ∧
    (∀ fs, doc = .obj fs → (fs.find? (fun f => f.1 = "_id")).isSome →
      docGet (docInsert st collection doc freshId now).2 collection freshId
        false now = some (.obj fs)) ∧
    (∀ fs, doc = .obj fs → fs.find? (fun f => f.1 = "_id") = none →
      (docGet (docInsert st collection doc freshId now).2 collection freshId
        false now).map (fun d => d.getField "_id") =
        some (some (.str freshId))) ∧
    ((∀ fs, ¬ doc = .obj fs) →
      docGet (docInsert st collection doc freshId now).2 collection freshId
        false now = some doc) := by
  refine ⟨rfl, ?_, ?_, ?_⟩
  · rintro fs rfl hsome
    rw [docGet_no_expiry]
    show (st.jput (doc_key collection freshId)
      (.obj (if (List.find? (fun f => f.1 = "_id") fs).isSome = true then fs
        else fs ++ [("_id", Json.str freshId)]))).jget
      (doc_key collection freshId) = some (.obj fs)
    rw [jget_jput_self, if_pos hsome]
  · rintro fs rfl hnone
    rw [docGet_no_expiry]
    show ((st.jput (doc_key collection freshId)
      (.obj (if (List.find? (fun f => f.1 = "_id") fs).isSome = true then fs
        else fs ++ [("_id", Json.str freshId)]))).jget
      (doc_key collection freshId)).map (fun d => d.getField "_id") =
      some (some (.str freshId))
    rw [jget_jput_self, if_neg (by simp [hnone])]
    show some (((fs ++ [("_id", Json.str freshId)]).find?
      (fun f => f.1 = "_id")).map (·.2)) = some (some (Json.str freshId))
    rw [find?_append_of_none _ _ _ hnone]
    rfl
  · intro hnotobj
    rw [docGet_no_expiry]
    cases doc with
    | obj fs => exact absurd rfl (hnotobj fs)
    | null => exact jget_jput_self _ _ _
    | bool b => exact jget_jput_self _ _ _
    | num n => exact jget_jput_self _ _ _
    | str s => exact jget_jput_self _ _ _
    | arr xs => exact jget_jput_self _ _ _

/-- C9 witness: the amended theorem applied to a fresh document without an
`_id` — the stored `_id` is the returned fresh id. -/
theorem c9_document_insert_identity_witness :
    (docGet (docInsert [] "c" (Json.obj [("a", Json.num 1)]) "n" 0).2 "c" "n"
      false 0).map (fun d => d.getField "_id") = some (some (Json.str "n")) :=
  (c9_document_insert_identity [] "c" (Json.obj [("a", Json.num 1)]) "n"
    0).2.2.1 [("a", Json.num 1)] rfl rfl

/-! ## Claim theorem: CryptoStorage key independence (C10) -/

/-- C10: the data-encryption key of a `CryptoStorage` is sampled freshly from
the process RNG at construction and does not depend on the caller-supplied
base64 KEK: the KEK is only base64-decoded and length-checked, then dropped,
so under the same RNG stream two instances built with any two valid KEKs
have identical state and produce identical `seal`/`open` results for every
AEAD primitive, nonce stream, plaintext and `(space, key)` context — and in
particular a later process (whose RNG differs) cannot reconstruct the DEK
from the KEK alone. -/
theorem c10_kek_independence (rng : Bytes) (kek1 kek2 : List Char)
    (s1 s2 : CryptoState)
    (h1 : CryptoStorage.new rng kek1 = .ok s1)
    (h2 : CryptoStorage.new rng kek2 = .ok s2) :
    s1 = s2 ∧
    (∀ aeadEncrypt nonceRng pt sp key,
      CryptoStorage.seal aeadEncrypt s1 nonceRng pt sp key =
        CryptoStorage.seal aeadEncrypt s2 nonceRng pt sp key) ∧
    (∀ aeadDecrypt blob sp key,
      CryptoStorage.openBlob aeadDecrypt s1 blob sp key =
        CryptoStorage.openBlob aeadDecrypt s2 blob sp key) := by
  have hstate : ∀ (kek : List Char) (s : CryptoState),
      CryptoStorage.new rng kek = .ok s → s = ⟨rng.take 32⟩ := by
    intro kek s h
    unfold CryptoStorage.new at h
    cases hd : b64decode kek with
    | none => rw [hd] at h; cases h
    | some kb =>
      rw [hd] at h
      replace h : (if ¬ kb.length = 32 then
          (Except.error (DbError.invalid "KEK must be 32 bytes") :
            Except DbError CryptoState)
        else .ok ⟨rng.take 32⟩) = .ok s := h
      by_cases hl : kb.length = 32
      · rw [if_neg (not_not_intro hl)] at h
        exact (Except.ok.inj h).symm
      · rw [if_pos hl] at h
        cases h
  have he : s1 = s2 := (hstate kek1 s1 h1).trans (hstate kek2 s2 h2).symm
  subst he
  exact ⟨rfl, fun _ _ _ _ _ => rfl, fun _ _ _ _ => rfl⟩

/-- C10 witness: two distinct, valid 32-byte base64 KEKs under the same RNG
stream yield the same constructed state. -/
theorem c10_kek_independence_witness :
    CryptoStorage.new (List.replicate 32 (mkByte 7))
      (List.replicate 43 'A' ++ ['=']) =
      .ok ⟨List.replicate 32 (mkByte 7)⟩ ∧
    CryptoStorage.new (List.replicate 32 (mkByte 7))
      ('B' :: (List.replicate 42 'A' ++ ['='])) =
      .ok ⟨List.replicate 32 (mkByte 7)⟩ ∧
    (⟨List.replicate 32 (mkByte 7)⟩ : CryptoState) =
      ⟨List.replicate 32 (mkByte 7)⟩ :=
  ⟨by rfl, by rfl,
   (c10_kek_independence (List.replicate 32 (mkByte 7))
     (List.replicate 43 'A' ++ ['=']) ('B' :: (List.replicate 42 'A' ++ ['=']))
     ⟨List.replicate 32 (mkByte 7)⟩ ⟨List.replicate 32 (mkByte 7)⟩
     (by rfl) (by rfl)).1⟩

end TonleDB
